import Mathlib

/-!
# GTM match viewer: `showMatches` and `showGTM` of `src/loadGTMfiles.cpp`

A shallow embedding of the two functions of `loadGTMfiles.cpp`, followed by the
properties of the decimation loop, of the point extraction and of the pair loop.

Modelling conventions:

* `float` values are modelled by the rationals they denote.  The only inexact
  operations of the decimation loop are the integer-to-`float` conversions and
  the one division; each is followed by `roundF32` (IEEE-754 binary32, round to
  nearest, ties to even).  `fmod` is exact in IEEE arithmetic, so it is not
  rounded.  All values that arise are non-negative; the only non-finite value is
  `+inf`, from a division by a zero cap.
* Container sizes and loop counters are natural numbers: sizes are taken to fit
  the `int` and `unsigned int` counters of the source.
* `std::vector::operator[]` is unchecked: a read outside the vector ends the
  modelled run in `Outcome.undefinedRead`.
* Calls into OpenCV and into the GTM reader are recorded as events and are
  taken to return; console output other than the status lines of `showGTM` is
  left out.
-/

namespace GTM

/-! ## binary32 arithmetic on rationals -/

/-- Round a rational to the nearest integer, ties to the even neighbour. -/
def roundHalfEven (y : ℚ) : ℤ :=
  if y - (⌊y⌋ : ℚ) < 1 / 2 then ⌊y⌋
  else if 1 / 2 < y - (⌊y⌋ : ℚ) then ⌊y⌋ + 1
  else if ⌊y⌋ % 2 = 0 then ⌊y⌋ else ⌊y⌋ + 1

/-- The binary32 value nearest to a non-negative rational (24-bit significand,
round to nearest, ties to even).  Overflow and subnormals are not modelled: the
arguments that arise are sizes below `2^64` and quotients of two such sizes. -/
def roundF32 (x : ℚ) : ℚ :=
  if x ≤ 0 then 0
  else (roundHalfEven (x / (2 : ℚ) ^ (Int.log 2 x - 23)) : ℚ) * (2 : ℚ) ^ (Int.log 2 x - 23)

/-- A non-negative `float`: a finite value or `+inf`. -/
inductive F32 where
  | fin (q : ℚ)
  | inf
  deriving DecidableEq

/-- The `float` division `a / b` of two finite non-negative values with `0 < a`,
under the rounding `rnd`: `+inf` when the divisor is zero. -/
def fdiv (rnd : ℚ → ℚ) (a b : ℚ) : F32 :=
  if b = 0 then F32.inf else F32.fin (rnd (a / b))

/-- The C function `fmod(x, y)` for `0 ≤ x` and `0 < y`: `x - n*y` with `n` the
quotient truncated toward zero; `fmod(x, +inf) = x`.  The result is exact. -/
def fmodf (x : ℚ) : F32 → ℚ
  | F32.fin y => x - y * (⌊x / y⌋ : ℚ)
  | F32.inf => x

/-! ## The decimation loop of `showMatches` (lines 171-190) -/

/-- Value of `keepXthMatch` after lines 178-180: `1.0f`, or
`(float) size / (float) keepNMatches` when `size > keepNMatches`. -/
def keepXthMatch (rnd : ℚ → ℚ) (size keepNMatches : ℕ) : F32 :=
  if size > keepNMatches then fdiv rnd (rnd size) (rnd keepNMatches) else F32.fin 1

/-- One iteration of the loop of lines 182-190 on the state
`(matchesMask, oldremainder)`. -/
def maskStep (rnd : ℚ → ℚ) (keepXth : F32) (st : List Bool × ℚ) (i : ℕ) : List Bool × ℚ :=
  let newremainder := fmodf (rnd i) keepXth
  (if st.2 ≥ newremainder then st.1.set i true else st.1, newremainder)

/-- The vector `matchesMask` after the loop, for `size` matches and the cap
`keepNMatches`, with `rnd` the rounding of the `float` operations. -/
def matchesMaskWith (rnd : ℚ → ℚ) (size keepNMatches : ℕ) : List Bool :=
  ((List.range size).foldl (maskStep rnd (keepXthMatch rnd size keepNMatches))
    (List.replicate size false, 0)).1

/-- The mask `showMatches` computes: the loop in binary32 arithmetic. -/
def matchesMask (size keepNMatches : ℕ) : List Bool :=
  matchesMaskWith roundF32 size keepNMatches

/-- Indices whose mask entry is true, in increasing order. -/
def retainedIndices (mask : List Bool) : List ℕ :=
  (List.range mask.length).filter (fun i => mask.getD i false)


/-! ## Data model -/

/-- The type `cv::Point2f`. -/
structure Point2f where
  x : ℚ
  y : ℚ
  deriving DecidableEq

/-- The type `cv::KeyPoint`; this file only uses its location `pt`. -/
structure KeyPoint where
  pt : Point2f
  deriving DecidableEq

/-- A default-constructed `cv::KeyPoint`, located at the origin. -/
def KeyPoint.blank : KeyPoint := ⟨⟨0, 0⟩⟩

/-- The type `cv::DMatch`; `queryIdx` and `trainIdx` are C `int`s. -/
structure DMatch where
  queryIdx : ℤ
  trainIdx : ℤ
  deriving DecidableEq

/-- Which keypoint vector a read goes to. -/
inductive Side where
  | left
  | right
  deriving DecidableEq

/-- Result of a piece of code that reads vectors with the unchecked
`operator[]`: it returns, or it reads position `idx` outside the vector of
`side`, after which the C++ program has no defined behaviour. -/
inductive Outcome (α : Type) where
  | returned (a : α)
  | undefinedRead (side : Side) (idx : ℤ)

/-- The read `v[idx]` with an `int` index: an element exactly when
`0 ≤ idx < v.size()`. -/
def vecRead (v : List KeyPoint) (idx : ℤ) : Option KeyPoint :=
  if 0 ≤ idx then v[idx.toNat]? else none

/-- Calls `showMatches` makes into OpenCV, with the arguments that matter. -/
inductive Call (Img : Type) where
  | findFundamentalMat (points1 points2 : List Point2f)
  | drawMatches (img1 : Img) (keypoints1 : List KeyPoint) (img2 : Img)
      (keypoints2 : List KeyPoint) (matches1to2 : List DMatch) (matchesMask : List Bool)
  | imshow
  | waitKey
  | destroyWindow

/-! ## The extraction loop of `showMatches` (lines 192-210) -/

/-- State of the loop: the two keypoint vectors and the rows written to the
text file `TruePositive`. -/
structure Extracted where
  matchedPointsLeft : List KeyPoint
  matchedPointsRight : List KeyPoint
  rows : List (Point2f × Point2f)

/-- One iteration (lines 199-209): read `keypL[queryIdx]`, append it, read
`keypR[trainIdx]`, append it, write the row. -/
def extractStep (keypL keypR : List KeyPoint) (st : Extracted) (m : DMatch) :
    Outcome Extracted :=
  match vecRead keypL m.queryIdx with
  | none => Outcome.undefinedRead Side.left m.queryIdx
  | some left =>
    match vecRead keypR m.trainIdx with
    | none => Outcome.undefinedRead Side.right m.trainIdx
    | some right =>
      Outcome.returned
        { matchedPointsLeft := st.matchedPointsLeft ++ [left]
          matchedPointsRight := st.matchedPointsRight ++ [right]
          rows := st.rows ++ [(left.pt, right.pt)] }

/-- The loop `for (i = 0; i < num; i++)` over all of `matchList`. -/
def extractLoop (keypL keypR : List KeyPoint) : List DMatch → Extracted → Outcome Extracted
  | [], st => Outcome.returned st
  | m :: ms, st =>
    match extractStep keypL keypR st m with
    | Outcome.returned st' => extractLoop keypL keypR ms st'
    | Outcome.undefinedRead s i => Outcome.undefinedRead s i

/-! ## `showMatches` -/

/-- What a returning call of `showMatches` has computed and done. -/
structure ShowResult (Img : Type) where
  matchesMask : List Bool
  points1 : List Point2f
  points2 : List Point2f
  rows : List (Point2f × Point2f)
  calls : List (Call Img)
  ret : ℤ

/-- The function `showMatches` (lines 165-282). -/
def showMatches {Img : Type} (matchList : List DMatch) (keypL keypR : List KeyPoint)
    (imgs : Img × Img) (keepNMatches : ℕ) : Outcome (ShowResult Img) :=
  let mask := matchesMask matchList.length keepNMatches
  let num := matchList.length
  match extractLoop keypL keypR matchList
      { matchedPointsLeft := List.replicate num KeyPoint.blank
        matchedPointsRight := List.replicate num KeyPoint.blank
        rows := [] } with
  | Outcome.undefinedRead s i => Outcome.undefinedRead s i
  | Outcome.returned st =>
    let points1 := st.matchedPointsLeft.map KeyPoint.pt
    let points2 := st.matchedPointsRight.map KeyPoint.pt
    Outcome.returned
      { matchesMask := mask
        points1 := points1
        points2 := points2
        rows := st.rows
        calls := [Call.findFundamentalMat points1 points2,
                  Call.drawMatches imgs.1 keypL imgs.2 keypR matchList mask,
                  Call.imshow, Call.waitKey, Call.destroyWindow]
        ret := 0 }

/-- Both indices of a correspondence are positions of their keypoint vectors. -/
def DMatch.InRange (keypL keypR : List KeyPoint) (m : DMatch) : Prop :=
  (0 ≤ m.queryIdx ∧ m.queryIdx < keypL.length) ∧ (0 ≤ m.trainIdx ∧ m.trainIdx < keypR.length)

instance (keypL keypR : List KeyPoint) (m : DMatch) : Decidable (m.InRange keypL keypR) := by
  unfold DMatch.InRange
  infer_instance

/-- Left endpoint coordinates of the correspondences whose mask entry is true,
in list order. -/
def retainedLeft (matchList : List DMatch) (keypL : List KeyPoint) (mask : List Bool) :
    List Point2f :=
  ((matchList.zip mask).filter (fun p => p.2)).filterMap
    (fun p => (vecRead keypL p.1.queryIdx).map KeyPoint.pt)

/-- Right endpoint coordinates of the correspondences whose mask entry is true,
in list order. -/
def retainedRight (matchList : List DMatch) (keypR : List KeyPoint) (mask : List Bool) :
    List Point2f :=
  ((matchList.zip mask).filter (fun p => p.2)).filterMap
    (fun p => (vecRead keypR p.1.trainIdx).map KeyPoint.pt)

/-- Left endpoint coordinates of all correspondences, in list order. -/
def allLeft (matchList : List DMatch) (keypL : List KeyPoint) : List Point2f :=
  matchList.filterMap (fun m => (vecRead keypL m.queryIdx).map KeyPoint.pt)

/-- Right endpoint coordinates of all correspondences, in list order. -/
def allRight (matchList : List DMatch) (keypR : List KeyPoint) : List Point2f :=
  matchList.filterMap (fun m => (vecRead keypR m.trainIdx).map KeyPoint.pt)

/-! ## `showGTM` -/

/-- What `readGTMatchesDisk` stores through its output parameters. -/
structure GTMRecord where
  leftInlier : List Bool
  matchesGT : List DMatch
  keypL : List KeyPoint
  keypR : List KeyPoint
  inlRatioL : ℚ
  inlRatioR : ℚ
  inlRatioO : ℚ
  positivesGT : ℚ
  negativesGTl : ℚ
  negativesGTr : ℚ
  usedMatchTH : ℚ

/-- Every correspondence of the record indexes into the keypoints of the record. -/
def GTMRecord.Valid (r : GTMRecord) : Prop :=
  ∀ m ∈ r.matchesGT, m.InRange r.keypL r.keypR

instance (r : GTMRecord) : Decidable r.Valid := by
  unfold GTMRecord.Valid
  infer_instance

/-- The external collaborators of `showGTM`: the two sequence loaders (error
code and filled filename vectors), `cv::imread`, and the GTM reader (`none`
when it returns false). -/
structure Env (Img : Type) where
  loadImgStereoSequence : String → String → String → ℤ × List String × List String
  loadGTMSequence : String → String → ℤ × List String
  imread : String → Img
  readGTMatchesDisk : String → Option GTMRecord

/-- Observable steps of a run of `showGTM`. -/
inductive Event (Img : Type) where
  | print (msg : String)
  | imread (file : String)
  | readGTM (k : ℕ) (file : String) (ok : Bool)
  | showMatches (k : ℕ) (result : ShowResult Img)

/-- How a run of `showGTM` ends: `exit(status)`, a return of `err`, or an
undefined read inside the `showMatches` call of pair `k`. -/
inductive RunOutcome (Img : Type) where
  | exited (status : ℤ) (events : List (Event Img))
  | returned (err : ℤ) (events : List (Event Img))
  | undefinedRead (k : ℕ) (side : Side) (idx : ℤ) (events : List (Event Img))

/-- The loop of lines 106-150 over the remaining indices, on the state `err`
and the events so far.  `positivesGT` is converted to `size_t` at the call. -/
def pairLoop {Img : Type} (env : Env Img) (filenamesl filenamesr filenamesgtm : List String) :
    List ℕ → ℤ → List (Event Img) → RunOutcome Img
  | [], err, ev => RunOutcome.returned err ev
  | k :: ks, err, ev =>
    let src0 := env.imread (filenamesl.getD k "")
    let src1 := env.imread (filenamesr.getD k "")
    let ev1 := ev ++ [Event.imread (filenamesl.getD k ""), Event.imread (filenamesr.getD k "")]
    match env.readGTMatchesDisk (filenamesgtm.getD k "") with
    | some r =>
      let ev2 := ev1 ++ [Event.readGTM k (filenamesgtm.getD k "") true,
        Event.print ("Succesfully read GTM file " ++ filenamesgtm.getD k "")]
      match showMatches r.matchesGT r.keypL r.keypR (src0, src1) ⌊r.positivesGT⌋₊ with
      | Outcome.returned res =>
        pairLoop env filenamesl filenamesr filenamesgtm ks err (ev2 ++ [Event.showMatches k res])
      | Outcome.undefinedRead s i => RunOutcome.undefinedRead k s i ev2
    | none =>
      pairLoop env filenamesl filenamesr filenamesgtm ks (-1)
        (ev1 ++ [Event.readGTM k (filenamesgtm.getD k "") false,
          Event.print ("Error while reading GTM file " ++ filenamesgtm.getD k "")])

/-- The function `showGTM` (lines 69-153). -/
def showGTM {Img : Type} (env : Env Img) (img_path l_img_pref r_img_pref gtm_path : String)
    ( gtm_postfix : String) : RunOutcome Img :=
  let fileprefl := l_img_pref
  let fileprefr := if r_img_pref.isEmpty then fileprefl else r_img_pref
  let imgs := env.loadImgStereoSequence img_path fileprefl fileprefr
  if imgs.1 ≠ 0 ∨ imgs.2.1.isEmpty ∨ imgs.2.2.isEmpty ∨ imgs.2.1.length ≠ imgs.2.2.length then
    RunOutcome.exited 0 [Event.print "Could not find flow images! Exiting."]
  else
    let gtms := env.loadGTMSequence gtm_path gtm_postfix
    if gtms.1 ≠ 0 ∨ gtms.2.isEmpty ∨ gtms.2.length ≠ imgs.2.1.length then
      RunOutcome.exited 0 [Event.print "Could not find GTM files! Exiting."]
    else
      pairLoop env imgs.2.1 imgs.2.2 gtms.2 (List.range imgs.2.1.length) 0 []

/-- Indices at which the run called the GTM reader, in order. -/
def readIndices {Img : Type} (ev : List (Event Img)) : List ℕ :=
  ev.filterMap (fun e => match e with
    | Event.readGTM k _ _ => some k
    | _ => none)

/-- Indices for which the run called `showMatches`, in order. -/
def shownIndices {Img : Type} (ev : List (Event Img)) : List ℕ :=
  ev.filterMap (fun e => match e with
    | Event.showMatches k _ => some k
    | _ => none)

/-! ## The loop variables as functions of the iteration -/

/-- Value of `newremainder` computed in iteration `i`. -/
def remAt (rnd : ℚ → ℚ) (s : F32) (i : ℕ) : ℚ := fmodf (rnd i) s

/-- Value of `oldremainder` at the start of iteration `i`. -/
def oldAt (rnd : ℚ → ℚ) (s : F32) : ℕ → ℚ
  | 0 => 0
  | i + 1 => remAt rnd s i

/-- Whether iteration `i` sets its mask entry. -/
def keptAt (rnd : ℚ → ℚ) (s : F32) (i : ℕ) : Bool := decide (oldAt rnd s i ≥ remAt rnd s i)

/-- The index `⌈j * M / K⌉` at which the `j`-th stride window of an exact
stride `M / K` starts. -/
def windowStart (M K j : ℕ) : ℕ := (j * M + K - 1) / K

/-- The keypoints read from `v` at the given indices, in order. -/
def readAll (v : List KeyPoint) (idxs : List ℤ) : List KeyPoint :=
  idxs.filterMap (vecRead v)

/-- The rows the extraction loop writes for the given correspondences. -/
def rowsOf (keypL keypR : List KeyPoint) (ms : List DMatch) : List (Point2f × Point2f) :=
  ms.filterMap (fun m =>
    match vecRead keypL m.queryIdx, vecRead keypR m.trainIdx with
    | some l, some r => some (l.pt, r.pt)
    | _, _ => none)

/-- Whether position `idx` lies outside the vector `v`. -/
def OutOfRange (v : List KeyPoint) (idx : ℤ) : Prop := ¬ (0 ≤ idx ∧ idx < v.length)

/-- Whether a call is the fundamental-matrix estimator. -/
def Call.isEstimator {Img : Type} : Call Img → Bool
  | Call.findFundamentalMat _ _ => true
  | _ => false

/-- Whether the GTM reader succeeds on the file of pair `k`. -/
def readOk {Img : Type} (env : Env Img) (filenamesgtm : List String) (k : ℕ) : Bool :=
  (env.readGTMatchesDisk (filenamesgtm.getD k "")).isSome

/-! ## Example inputs -/

/-- A record with two correspondences over two keypoints a side. -/
def exampleRecord : GTMRecord :=
  { leftInlier := [true, true]
    matchesGT := [⟨0, 1⟩, ⟨1, 0⟩]
    keypL := [⟨⟨1, 2⟩⟩, ⟨⟨3, 4⟩⟩]
    keypR := [⟨⟨5, 6⟩⟩, ⟨⟨7, 8⟩⟩]
    inlRatioL := 1
    inlRatioR := 1
    inlRatioO := 1
    positivesGT := 2
    negativesGTl := 0
    negativesGTr := 0
    usedMatchTH := 1 }

/-- Five image pairs with five GTM files, of which `g2.gtm` fails to parse. -/
def envFiveOneBad : Env Unit :=
  { loadImgStereoSequence := fun _ _ _ =>
      (0, ["l0.png", "l1.png", "l2.png", "l3.png", "l4.png"],
        ["r0.png", "r1.png", "r2.png", "r3.png", "r4.png"])
    loadGTMSequence := fun _ _ => (0, ["g0.gtm", "g1.gtm", "g2.gtm", "g3.gtm", "g4.gtm"])
    imread := fun _ => ()
    readGTMatchesDisk := fun file => if file = "g2.gtm" then none else some exampleRecord }

/-- Three left image names but two right image names. -/
def envThreeTwo : Env Unit :=
  { loadImgStereoSequence := fun _ _ _ =>
      (0, ["l0.png", "l1.png", "l2.png"], ["r0.png", "r1.png"])
    loadGTMSequence := fun _ _ => (0, ["g0.gtm", "g1.gtm", "g2.gtm"])
    imread := fun _ => ()
    readGTMatchesDisk := fun _ => some exampleRecord }

/-- Two image pairs but a single GTM file. -/
def envTwoPairsOneGTM : Env Unit :=
  { loadImgStereoSequence := fun _ _ _ => (0, ["l0.png", "l1.png"], ["r0.png", "r1.png"])
    loadGTMSequence := fun _ _ => (0, ["g0.gtm"])
    imread := fun _ => ()
    readGTMatchesDisk := fun _ => some exampleRecord }

/-- A record whose one correspondence has the left index 7 although there is a
single left keypoint. -/
def malformedRecord : GTMRecord :=
  { leftInlier := [true]
    matchesGT := [⟨7, 0⟩]
    keypL := [⟨⟨1, 2⟩⟩]
    keypR := [⟨⟨5, 6⟩⟩]
    inlRatioL := 1
    inlRatioR := 1
    inlRatioO := 1
    positivesGT := 1
    negativesGTl := 0
    negativesGTr := 0
    usedMatchTH := 1 }

/-- Two image pairs with two GTM files that both parse; the record of `g0.gtm`
is `malformedRecord`. -/
def envMalformedFirst : Env Unit :=
  { loadImgStereoSequence := fun _ _ _ => (0, ["l0.png", "l1.png"], ["r0.png", "r1.png"])
    loadGTMSequence := fun _ _ => (0, ["g0.gtm", "g1.gtm"])
    imread := fun _ => ()
    readGTMatchesDisk := fun file =>
      if file = "g0.gtm" then some malformedRecord else some exampleRecord }

/-! ## Facts about the binary32 rounding -/

theorem roundHalfEven_intCast (z : ℤ) : roundHalfEven (z : ℚ) = z := by
  unfold roundHalfEven
  rw [Int.floor_intCast, sub_self, if_pos (by norm_num)]

theorem roundHalfEven_abs_sub_le (y : ℚ) : |(roundHalfEven y : ℚ) - y| ≤ 1 / 2 := by
  have h0 : (⌊y⌋ : ℚ) ≤ y := Int.floor_le y
  have h1 : y < (⌊y⌋ : ℚ) + 1 := Int.lt_floor_add_one y
  unfold roundHalfEven
  rw [abs_le]
  split_ifs with ha hb hc
  · constructor <;> linarith
  · push_cast; constructor <;> linarith
  · constructor <;> linarith
  · push_cast; constructor <;> linarith

theorem two_zpow_pos (k : ℤ) : (0 : ℚ) < (2 : ℚ) ^ k := zpow_pos (by norm_num) k

theorem roundF32_zero : roundF32 0 = 0 := by simp [roundF32]

/-- A value whose scaled significand is already an integer is not changed. -/
theorem roundF32_of_scaled_int {x : ℚ} (hx : 0 < x) (z : ℤ)
    (hz : x / (2 : ℚ) ^ (Int.log 2 x - 23) = z) : roundF32 x = x := by
  unfold roundF32
  rw [if_neg (not_le.mpr hx), hz, roundHalfEven_intCast, ← hz]
  exact div_mul_cancel₀ x (ne_of_gt (two_zpow_pos _))

/-- Rounding error: half a unit in the last place of the binade of `x`. -/
theorem roundF32_abs_sub_le {x : ℚ} (hx : 0 < x) :
    |roundF32 x - x| ≤ (2 : ℚ) ^ (Int.log 2 x - 24) := by
  have hu : (0 : ℚ) < (2 : ℚ) ^ (Int.log 2 x - 23) := two_zpow_pos _
  have hsplit : (2 : ℚ) ^ (Int.log 2 x - 24) = 1 / 2 * (2 : ℚ) ^ (Int.log 2 x - 23) := by
    have : Int.log 2 x - 24 = (Int.log 2 x - 23) + (-1) := by ring
    rw [this, zpow_add₀ (by norm_num : (2 : ℚ) ≠ 0)]
    norm_num
    ring
  have key : (roundHalfEven (x / (2 : ℚ) ^ (Int.log 2 x - 23)) : ℚ) * (2 : ℚ) ^ (Int.log 2 x - 23) - x
      = ((roundHalfEven (x / (2 : ℚ) ^ (Int.log 2 x - 23)) : ℚ) - x / (2 : ℚ) ^ (Int.log 2 x - 23))
          * (2 : ℚ) ^ (Int.log 2 x - 23) := by
    rw [sub_mul, div_mul_cancel₀ x (ne_of_gt hu)]
  unfold roundF32
  rw [if_neg (not_le.mpr hx), hsplit, key, abs_mul, abs_of_pos hu]
  exact mul_le_mul_of_nonneg_right (roundHalfEven_abs_sub_le _) (le_of_lt hu)

theorem two_zpow_log_le {x : ℚ} (hx : 0 < x) : (2 : ℚ) ^ Int.log 2 x ≤ x := by
  have := Int.zpow_log_le_self (b := 2) (r := x) (by norm_num) hx
  simpa using this

theorem lt_two_zpow_log_succ (x : ℚ) : x < (2 : ℚ) ^ (Int.log 2 x + 1) := by
  have := Int.lt_zpow_succ_log_self (b := 2) (by norm_num) x
  simpa using this

/-- Relative rounding error `2^-24`. -/
theorem roundF32_abs_sub_le_rel {x : ℚ} (hx : 0 < x) :
    |roundF32 x - x| ≤ x / 2 ^ 24 := by
  refine le_trans (roundF32_abs_sub_le hx) ?_
  have h1 : (2 : ℚ) ^ (Int.log 2 x - 24) = (2 : ℚ) ^ Int.log 2 x / 2 ^ 24 := by
    rw [zpow_sub₀ (by norm_num : (2 : ℚ) ≠ 0)]
    norm_num
  rw [h1]
  exact div_le_div_of_nonneg_right (two_zpow_log_le hx) (by positivity)

/-- Conversion of an integer to `float` yields an integer. -/
theorem roundF32_natCast_int (n : ℕ) : ∃ z : ℤ, roundF32 (n : ℚ) = z := by
  rcases Nat.eq_zero_or_pos n with h0 | hpos
  · exact ⟨0, by simp [h0, roundF32_zero]⟩
  · have hx : (0 : ℚ) < n := by exact_mod_cast hpos
    by_cases he : 23 ≤ Int.log 2 (n : ℚ)
    · obtain ⟨k, hk⟩ := Int.eq_ofNat_of_zero_le (sub_nonneg.mpr he)
      refine ⟨roundHalfEven ((n : ℚ) / (2 : ℚ) ^ (Int.log 2 (n : ℚ) - 23)) * 2 ^ k, ?_⟩
      unfold roundF32
      rw [if_neg (not_le.mpr hx), hk]
      push_cast
      rw [zpow_natCast]
    · push_neg at he
      obtain ⟨k, hk⟩ := Int.eq_ofNat_of_zero_le (show (0 : ℤ) ≤ 23 - Int.log 2 (n : ℚ) by omega)
      refine ⟨n, ?_⟩
      have hz : (n : ℚ) / (2 : ℚ) ^ (Int.log 2 (n : ℚ) - 23) = ((n * 2 ^ k : ℕ) : ℤ) := by
        have : Int.log 2 (n : ℚ) - 23 = -(k : ℤ) := by omega
        rw [this, zpow_neg, zpow_natCast]
        push_cast
        field_simp
      rw [roundF32_of_scaled_int hx _ hz]
      simp

/-- Every integer up to `2^24` is a binary32 value. -/
theorem roundF32_natCast_of_le {n : ℕ} (hn : n ≤ 2 ^ 24) : roundF32 (n : ℚ) = n := by
  rcases Nat.eq_zero_or_pos n with h0 | hpos
  · simp [h0, roundF32_zero]
  · have hx : (0 : ℚ) < n := by exact_mod_cast hpos
    rcases Nat.lt_or_ge n (2 ^ 24) with hlt | hge
    · have hlog : Int.log 2 (n : ℚ) < 24 := by
        rw [Int.log_natCast]
        have : Nat.log 2 n < 24 := Nat.log_lt_of_lt_pow (by omega) hlt
        exact_mod_cast this
      obtain ⟨k, hk⟩ := Int.eq_ofNat_of_zero_le (show (0 : ℤ) ≤ 23 - Int.log 2 (n : ℚ) by omega)
      have hz : (n : ℚ) / (2 : ℚ) ^ (Int.log 2 (n : ℚ) - 23) = ((n * 2 ^ k : ℕ) : ℤ) := by
        have : Int.log 2 (n : ℚ) - 23 = -(k : ℤ) := by omega
        rw [this, zpow_neg, zpow_natCast]
        push_cast
        field_simp
      exact roundF32_of_scaled_int hx _ hz
    · have hn' : n = 2 ^ 24 := le_antisymm hn hge
      have hlog : Int.log 2 (n : ℚ) = 24 := by
        rw [Int.log_natCast, hn', Nat.log_pow (by norm_num)]
        rfl
      have hz : (n : ℚ) / (2 : ℚ) ^ (Int.log 2 (n : ℚ) - 23) = ((2 ^ 23 : ℕ) : ℤ) := by
        rw [hlog, hn']
        norm_num
      exact roundF32_of_scaled_int hx _ hz

/-! ## The mask loop, iteration by iteration -/

theorem set_at_boundary (l : List Bool) (k : ℕ) :
    (l ++ List.replicate (k + 1) false).set l.length true
      = (l ++ [true]) ++ List.replicate k false := by
  induction l with
  | nil => simp [List.replicate_succ]
  | cons a l ih => simpa using ih

theorem maskLoop_upTo (rnd : ℚ → ℚ) (s : F32) (size : ℕ) :
    ∀ n, n ≤ size →
      (List.range n).foldl (maskStep rnd s) (List.replicate size false, 0)
        = ((List.range n).map (keptAt rnd s) ++ List.replicate (size - n) false, oldAt rnd s n) := by
  intro n
  induction n with
  | zero => intro _; simp [oldAt]
  | succ n ih =>
    intro hn
    have hn' : n ≤ size := Nat.le_of_succ_le hn
    rw [List.range_succ, List.foldl_append, ih hn']
    have hk : size - n = (size - (n + 1)) + 1 := by omega
    have hlen : ((List.range n).map (keptAt rnd s)).length = n := by simp
    have hold : oldAt rnd s (n + 1) = fmodf (rnd n) s := rfl
    simp only [List.foldl_cons, List.foldl_nil, maskStep, List.map_append, List.map_cons,
      List.map_nil, hold]
    by_cases hc : oldAt rnd s n ≥ fmodf (rnd n) s
    · have h1 : keptAt rnd s n = true := by simp [keptAt, remAt, hc]
      rw [if_pos hc, h1, hk]
      have := set_at_boundary ((List.range n).map (keptAt rnd s)) (size - (n + 1))
      rw [hlen] at this
      rw [this]
    · have h1 : keptAt rnd s n = false := by simp [keptAt, remAt, hc]
      rw [if_neg hc, h1, hk, List.replicate_succ]
      simp

/-- The mask after the loop: entry `i` is set exactly when iteration `i` found
`oldremainder >= newremainder`. -/
theorem matchesMaskWith_eq (rnd : ℚ → ℚ) (size K : ℕ) :
    matchesMaskWith rnd size K
      = (List.range size).map (keptAt rnd (keepXthMatch rnd size K)) := by
  unfold matchesMaskWith
  rw [maskLoop_upTo rnd _ size size le_rfl]
  simp

theorem matchesMaskWith_length (rnd : ℚ → ℚ) (size K : ℕ) :
    (matchesMaskWith rnd size K).length = size := by
  simp [matchesMaskWith_eq]

theorem fmodf_zero (s : F32) : fmodf 0 s = 0 := by
  cases s <;> simp [fmodf]

theorem keptAt_zero (rnd : ℚ → ℚ) (s : F32) (h0 : rnd 0 = 0) : keptAt rnd s 0 = true := by
  simp [keptAt, oldAt, remAt, h0, fmodf_zero]

theorem remAt_one_eq_zero (i : ℕ) : remAt roundF32 (F32.fin 1) i = 0 := by
  obtain ⟨z, hz⟩ := roundF32_natCast_int i
  simp [remAt, fmodf, hz]

theorem oldAt_one_eq_zero (i : ℕ) : oldAt roundF32 (F32.fin 1) i = 0 := by
  cases i with
  | zero => rfl
  | succ i => exact remAt_one_eq_zero i

theorem keptAt_one (i : ℕ) : keptAt roundF32 (F32.fin 1) i = true := by
  simp [keptAt, remAt_one_eq_zero, oldAt_one_eq_zero]

/-! ## Counting the retained entries for a finite stride above one -/

theorem remAt_fin_of_exact {rnd : ℚ → ℚ} (s : ℚ) {i : ℕ} (hi : rnd i = i) :
    remAt rnd (F32.fin s) i = i - s * (⌊(i : ℚ) / s⌋ : ℚ) := by
  simp [remAt, fmodf, hi]

/-- From iteration 1 on, an entry is set exactly when the index enters the next
stride window. -/
theorem keptAt_succ_iff {rnd : ℚ → ℚ} {s : ℚ} (hs : 1 < s) {i : ℕ}
    (hi : rnd i = i) (hi1 : rnd ((i + 1 : ℕ) : ℚ) = ((i + 1 : ℕ) : ℚ)) :
    keptAt rnd (F32.fin s) (i + 1) = true
      ↔ ⌊(i : ℚ) / s⌋ < ⌊((i + 1 : ℕ) : ℚ) / s⌋ := by
  have hold : oldAt rnd (F32.fin s) (i + 1) = remAt rnd (F32.fin s) i := rfl
  unfold keptAt
  rw [hold, remAt_fin_of_exact s hi, remAt_fin_of_exact s hi1, decide_eq_true_iff]
  constructor
  · intro h
    by_contra hlt
    push_neg at hlt
    have hc : ((⌊((i + 1 : ℕ) : ℚ) / s⌋ : ℤ) : ℚ) ≤ (⌊(i : ℚ) / s⌋ : ℚ) := by exact_mod_cast hlt
    have : s * (⌊((i + 1 : ℕ) : ℚ) / s⌋ : ℚ) ≤ s * (⌊(i : ℚ) / s⌋ : ℚ) :=
      mul_le_mul_of_nonneg_left hc (by linarith)
    have hcast : ((i + 1 : ℕ) : ℚ) = (i : ℚ) + 1 := by push_cast; ring
    linarith
  · intro h
    have hc : (⌊(i : ℚ) / s⌋ : ℚ) + 1 ≤ ((⌊((i + 1 : ℕ) : ℚ) / s⌋ : ℤ) : ℚ) := by exact_mod_cast h
    have : s * ((⌊(i : ℚ) / s⌋ : ℚ) + 1) ≤ s * (⌊((i + 1 : ℕ) : ℚ) / s⌋ : ℚ) :=
      mul_le_mul_of_nonneg_left hc (by linarith)
    have hcast : ((i + 1 : ℕ) : ℚ) = (i : ℚ) + 1 := by push_cast; ring
    linarith

theorem floor_div_succ_le {s : ℚ} (hs : 1 < s) (i : ℕ) :
    ⌊((i + 1 : ℕ) : ℚ) / s⌋ ≤ ⌊(i : ℚ) / s⌋ + 1 := by
  have hpos : 0 < s := by linarith
  have h1 : ((i + 1 : ℕ) : ℚ) / s ≤ (i : ℚ) / s + 1 := by
    rw [div_add' _ _ _ (ne_of_gt hpos), div_le_div_iff_of_pos_right hpos]
    push_cast
    linarith
  calc ⌊((i + 1 : ℕ) : ℚ) / s⌋ ≤ ⌊(i : ℚ) / s + 1⌋ := Int.floor_mono h1
    _ = ⌊(i : ℚ) / s⌋ + 1 := Int.floor_add_one _

theorem floor_div_le_succ {s : ℚ} (hs : 1 < s) (i : ℕ) :
    ⌊(i : ℚ) / s⌋ ≤ ⌊((i + 1 : ℕ) : ℚ) / s⌋ := by
  have hpos : 0 < s := by linarith
  apply Int.floor_mono
  rw [div_le_div_iff_of_pos_right hpos]
  push_cast
  linarith

/-- Number of set entries among the first `n + 1`, when the indices up to `n`
are exact under `rnd`: one for index 0 plus one for each stride window entered. -/
theorem count_keptAt {rnd : ℚ → ℚ} {s : ℚ} (hs : 1 < s) (h0 : rnd 0 = 0) :
    ∀ n : ℕ, (∀ j : ℕ, j ≤ n → rnd j = j) →
      ((((List.range (n + 1)).map (keptAt rnd (F32.fin s))).count true : ℕ) : ℤ)
        = 1 + ⌊(n : ℚ) / s⌋ := by
  intro n
  induction n with
  | zero =>
    intro _
    simp [List.range_succ, keptAt_zero rnd _ h0]
  | succ n ih =>
    intro hex
    have ih' := ih (fun j hj => hex j (Nat.le_succ_of_le hj))
    rw [List.range_succ, List.map_append, List.count_append, Nat.cast_add, ih']
    have hkey := keptAt_succ_iff hs (hex n (Nat.le_succ n)) (hex (n + 1) le_rfl)
    have hup := floor_div_succ_le hs n
    have hlo := floor_div_le_succ hs n
    by_cases hk : keptAt rnd (F32.fin s) (n + 1) = true
    · have := hkey.mp hk
      simp only [List.map_cons, List.map_nil, hk, List.count_singleton_self, Nat.cast_one]
      omega
    · have hlt := mt hkey.mpr hk
      have hf : keptAt rnd (F32.fin s) (n + 1) = false := by simpa using hk
      have hcnt : List.count true [false] = 0 := by decide
      simp only [List.map_cons, List.map_nil, hf, hcnt, Nat.cast_zero]
      omega

/-! ## The binary32 stride for sizes up to `2^24` -/

theorem matchesMask_of_le {M K : ℕ} (h : M ≤ K) : matchesMask M K = List.replicate M true := by
  have hs : keepXthMatch roundF32 M K = F32.fin 1 := by
    unfold keepXthMatch
    rw [if_neg (by omega)]
  unfold matchesMask
  rw [matchesMaskWith_eq, hs]
  apply List.ext_getElem
  · simp
  · intro i h1 h2
    simp [keptAt_one]

/-- For `1 ≤ K < M ≤ 2^24` both conversions are exact, so `keepXthMatch` is the
quotient `M / K` rounded once. -/
theorem keepXthMatch_roundF32 {M K : ℕ} (hK : 1 ≤ K) (hKM : K < M) (hM : M ≤ 2 ^ 24) :
    keepXthMatch roundF32 M K = F32.fin (roundF32 ((M : ℚ) / K)) := by
  have hK0 : (K : ℚ) ≠ 0 := by
    have : (0 : ℚ) < K := by exact_mod_cast hK
    exact ne_of_gt this
  unfold keepXthMatch fdiv
  rw [if_pos hKM, roundF32_natCast_of_le hM, roundF32_natCast_of_le (by omega : K ≤ 2 ^ 24),
    if_neg hK0]

/-- The rounded quotient stays above one. -/
theorem one_lt_roundF32_div {M K : ℕ} (hK : 1 ≤ K) (hKM : K < M) (hM : M ≤ 2 ^ 24) :
    1 < roundF32 ((M : ℚ) / K) := by
  have hk : (1 : ℚ) ≤ K := by exact_mod_cast hK
  have hkpos : (0 : ℚ) < K := by linarith
  have hkm : (K : ℚ) + 1 ≤ M := by exact_mod_cast hKM
  have hm : (M : ℚ) ≤ 2 ^ 24 := by exact_mod_cast hM
  have hx1 : 1 + 1 / (K : ℚ) ≤ (M : ℚ) / K := by
    rw [le_div_iff₀ hkpos]
    field_simp
    linarith
  have hxpos : (0 : ℚ) < (M : ℚ) / K := div_pos (by linarith) hkpos
  have hklt : (K : ℚ) < 2 ^ 24 := by linarith
  have hinv : (1 : ℚ) / 2 ^ 24 < 1 / (K : ℚ) := by
    apply one_div_lt_one_div_of_lt hkpos hklt
  rcases lt_or_le ((M : ℚ) / K) 2 with hlt | hge
  · have hlog : Int.log 2 ((M : ℚ) / K) ≤ 0 := by
      by_contra hcon
      push_neg at hcon
      have h1 : (2 : ℚ) ^ (1 : ℤ) ≤ (2 : ℚ) ^ Int.log 2 ((M : ℚ) / K) :=
        zpow_le_zpow_right₀ (by norm_num) (by omega)
      have h2 := two_zpow_log_le hxpos
      norm_num at h1
      linarith
    have herr := roundF32_abs_sub_le hxpos
    have hpow : (2 : ℚ) ^ (Int.log 2 ((M : ℚ) / K) - 24) ≤ (2 : ℚ) ^ (-24 : ℤ) :=
      zpow_le_zpow_right₀ (by norm_num) (by omega)
    have hval : (2 : ℚ) ^ (-24 : ℤ) = 1 / 2 ^ 24 := by
      rw [zpow_neg]
      norm_num
    have := (abs_le.mp (le_trans herr hpow)).1
    rw [hval] at this
    linarith
  · have herr := (abs_le.mp (roundF32_abs_sub_le_rel hxpos)).1
    have : (M : ℚ) / K / 2 ^ 24 ≤ (M : ℚ) / K / 2 := by
      apply div_le_div_of_nonneg_left (le_of_lt hxpos) (by norm_num) (by norm_num)
    linarith

/-- Bounds on the number of stride windows entered, from the relative rounding
error of the one division. -/
theorem floor_div_stride_bounds {n K : ℕ} (hK : 1 ≤ K) (hKM : K < n + 1)
    (hM : n + 1 ≤ 2 ^ 24) :
    (K : ℤ) - 2 ≤ ⌊(n : ℚ) / roundF32 (((n + 1 : ℕ) : ℚ) / K)⌋
      ∧ ⌊(n : ℚ) / roundF32 (((n + 1 : ℕ) : ℚ) / K)⌋ ≤ K := by
  have hs := one_lt_roundF32_div hK hKM hM
  have hspos : 0 < roundF32 (((n + 1 : ℕ) : ℚ) / K) := by linarith
  have hk : (1 : ℚ) ≤ K := by exact_mod_cast hK
  have hkpos : (0 : ℚ) < K := by linarith
  have hkm : (K : ℚ) + 1 ≤ ((n + 1 : ℕ) : ℚ) := by exact_mod_cast hKM
  have hm : ((n + 1 : ℕ) : ℚ) ≤ 2 ^ 24 := by exact_mod_cast hM
  have hn : ((n + 1 : ℕ) : ℚ) = (n : ℚ) + 1 := by push_cast; ring
  have hxpos : (0 : ℚ) < ((n + 1 : ℕ) : ℚ) / K := div_pos (by linarith) hkpos
  have hkt : (K : ℚ) * (((n + 1 : ℕ) : ℚ) / K) = ((n + 1 : ℕ) : ℚ) := by
    field_simp
  have ht1 : 1 < ((n + 1 : ℕ) : ℚ) / K := by
    rw [lt_div_iff₀ hkpos]
    linarith
  obtain ⟨hlo, hhi⟩ := abs_le.mp (roundF32_abs_sub_le_rel hxpos)
  generalize roundF32 (((n + 1 : ℕ) : ℚ) / K) = s at hs hspos hlo hhi ⊢
  generalize hteq : ((n + 1 : ℕ) : ℚ) / K = t at hxpos hkt ht1 hlo hhi
  have hktu : (K : ℚ) * (t / 2 ^ 24) ≤ 1 := by
    have : (K : ℚ) * (t / 2 ^ 24) = (K * t) / 2 ^ 24 := by ring
    rw [this, hkt, div_le_one (by norm_num)]
    exact hm
  have htu : 0 < t / 2 ^ 24 := by positivity
  have htu' : t / 2 ^ 24 < t := by
    apply div_lt_self hxpos
    norm_num
  constructor
  · rcases Nat.lt_or_ge K 3 with h3 | h3
    · have : (0 : ℤ) ≤ ⌊(n : ℚ) / s⌋ := Int.floor_nonneg.mpr (by positivity)
      omega
    · rw [Int.le_floor, le_div_iff₀ hspos]
      have hk2 : (0 : ℚ) ≤ (K : ℚ) - 2 := by
        have : (3 : ℚ) ≤ K := by exact_mod_cast h3
        linarith
      have h1 : ((K : ℚ) - 2) * (s - t) ≤ ((K : ℚ) - 2) * (t / 2 ^ 24) :=
        mul_le_mul_of_nonneg_left hhi hk2
      push_cast
      nlinarith
  · have hlt : ⌊(n : ℚ) / s⌋ < (K : ℤ) + 1 := by
      rw [Int.floor_lt, div_lt_iff₀ hspos]
      have h1 : ((K : ℚ) + 1) * (-(t / 2 ^ 24)) ≤ ((K : ℚ) + 1) * (s - t) :=
        mul_le_mul_of_nonneg_left hlo (by linarith)
      push_cast
      nlinarith
    omega

/-! ## The loop when the stride and the index conversions are exact -/

theorem one_lt_exact_stride {M K : ℕ} (hK : 1 ≤ K) (hKM : K < M) : 1 < (M : ℚ) / K := by
  have hkpos : (0 : ℚ) < K := by exact_mod_cast hK
  rw [lt_div_iff₀ hkpos]
  have : (K : ℚ) < M := by exact_mod_cast hKM
  linarith

theorem floor_div_exact (i M K : ℕ) (hK : 1 ≤ K) :
    ⌊(i : ℚ) / ((M : ℚ) / K)⌋ = ((i * K / M : ℕ) : ℤ) := by
  have hK0 : (K : ℚ) ≠ 0 := by
    have : (0 : ℚ) < K := by exact_mod_cast hK
    exact ne_of_gt this
  have h : (i : ℚ) / ((M : ℚ) / K) = ((i * K : ℕ) : ℚ) / (M : ℚ) := by
    push_cast
    rw [div_div_eq_mul_div]
  rw [h, Rat.floor_natCast_div_natCast]
  norm_cast

/-- With the stride `M / K` and exact conversions of `i` and `i + 1`, entry
`i + 1` is set exactly when `⌊i * K / M⌋` increases. -/
theorem keptAt_exact_succ_iff {rnd : ℚ → ℚ} {M K : ℕ} (hK : 1 ≤ K) (hKM : K < M) (i : ℕ)
    (hi : rnd i = i) (hi1 : rnd ((i + 1 : ℕ) : ℚ) = ((i + 1 : ℕ) : ℚ)) :
    keptAt rnd (F32.fin ((M : ℚ) / K)) (i + 1) = true ↔ i * K / M < (i + 1) * K / M := by
  rw [keptAt_succ_iff (one_lt_exact_stride hK hKM) hi hi1, floor_div_exact _ _ _ hK,
    floor_div_exact _ _ _ hK]
  exact_mod_cast Iff.rfl

theorem windowStart_bounds (M j : ℕ) {K : ℕ} (hK : 1 ≤ K) :
    j * M ≤ windowStart M K j * K ∧ windowStart M K j * K < j * M + K := by
  unfold windowStart
  have h1 := Nat.div_mul_le_self (j * M + K - 1) K
  have h2 := Nat.lt_mul_div_succ (j * M + K - 1) (show 0 < K by omega)
  have h3 : K * ((j * M + K - 1) / K + 1) = (j * M + K - 1) / K * K + K := by ring
  constructor <;> omega

theorem windowStart_eq {M K j i : ℕ} (h1 : j * M ≤ i * K) (h2 : i * K < j * M + K) :
    windowStart M K j = i := by
  unfold windowStart
  apply Nat.div_eq_of_lt_le
  · omega
  · have : (i + 1) * K = i * K + K := by ring
    omega

theorem windowStart_zero (M : ℕ) {K : ℕ} (hK : 1 ≤ K) : windowStart M K 0 = 0 :=
  windowStart_eq (by simp) (by omega)

theorem windowStart_lt_succ {M K : ℕ} (hK : 1 ≤ K) (hKM : K < M) (j : ℕ) :
    windowStart M K j < windowStart M K (j + 1) := by
  obtain ⟨a1, a2⟩ := windowStart_bounds M j hK
  obtain ⟨b1, b2⟩ := windowStart_bounds M (j + 1) hK
  have h : (j + 1) * M = j * M + M := by ring
  by_contra hcon
  push_neg at hcon
  have := Nat.mul_le_mul_right K hcon
  omega

theorem windowStart_strictMono {M K : ℕ} (hK : 1 ≤ K) (hKM : K < M) :
    StrictMono (windowStart M K) :=
  strictMono_nat_of_lt_succ (windowStart_lt_succ hK hKM)

/-- With the stride `M / K` and exact index conversions, the set entries are
exactly the window starts. -/
theorem keptAt_exact_iff_windowStart {rnd : ℚ → ℚ} {M K : ℕ} (hK : 1 ≤ K) (hKM : K < M)
    (hidx : ∀ i : ℕ, i < M → rnd i = i) (i : ℕ) :
    (i < M ∧ keptAt rnd (F32.fin ((M : ℚ) / K)) i = true)
      ↔ ∃ j, j < K ∧ windowStart M K j = i := by
  have hMpos : 0 < M := by omega
  have h0 : rnd 0 = 0 := by simpa using hidx 0 hMpos
  constructor
  · rintro ⟨hi, hk⟩
    cases i with
    | zero => exact ⟨0, by omega, windowStart_zero M hK⟩
    | succ i =>
      rw [keptAt_exact_succ_iff hK hKM i (hidx i (by omega)) (hidx (i + 1) hi)] at hk
      refine ⟨(i + 1) * K / M, ?_, ?_⟩
      · rw [Nat.div_lt_iff_lt_mul hMpos, Nat.mul_comm K M]
        exact (Nat.mul_lt_mul_right (show 0 < K by omega)).mpr hi
      · have h1 : (i + 1) * K / M * M ≤ (i + 1) * K := Nat.div_mul_le_self _ _
        have h2 : i * K < (i + 1) * K / M * M := by
          rw [← Nat.div_lt_iff_lt_mul hMpos]
          exact hk
        have h3 : (i + 1) * K = i * K + K := by ring
        exact windowStart_eq h1 (by omega)
  · rintro ⟨j, hj, rfl⟩
    obtain ⟨b1, b2⟩ := windowStart_bounds M j hK
    have hlt : windowStart M K j < M := by
      by_contra hcon
      push_neg at hcon
      have h1 := Nat.mul_le_mul_right K hcon
      have h2 : j * M + M ≤ K * M := by
        have : (j + 1) * M ≤ K * M := Nat.mul_le_mul_right M hj
        have h3 : (j + 1) * M = j * M + M := by ring
        omega
      have h4 : M * K = K * M := Nat.mul_comm _ _
      omega
    refine ⟨hlt, ?_⟩
    rcases Nat.eq_zero_or_pos (windowStart M K j) with hz | hpos
    · rw [hz]
      exact keptAt_zero _ _ h0
    · obtain ⟨i, hi⟩ : ∃ i, windowStart M K j = i + 1 := ⟨windowStart M K j - 1, by omega⟩
      rw [hi] at b1 b2 hlt ⊢
      rw [keptAt_exact_succ_iff hK hKM i (hidx i (by omega)) (hidx (i + 1) hlt)]
      have h3 : (i + 1) * K = i * K + K := by ring
      have hA : i * K / M < j := by
        rw [Nat.div_lt_iff_lt_mul hMpos]
        omega
      have hB : j ≤ (i + 1) * K / M := by
        rw [Nat.le_div_iff_mul_le hMpos]
        exact b1
      omega

theorem retainedIndices_map_range (f : ℕ → Bool) (M : ℕ) :
    retainedIndices ((List.range M).map f) = (List.range M).filter (fun i => f i) := by
  unfold retainedIndices
  rw [List.length_map, List.length_range]
  apply List.filter_congr
  intro i hi
  rw [List.mem_range] at hi
  simp [List.getD_eq_getElem?_getD, hi]

/-- The retained indices, in increasing order, of a run of the loop whose
stride is `M / K` and whose index conversions are exact. -/
theorem retainedIndices_exact {rnd : ℚ → ℚ} {M K : ℕ} (hK : 1 ≤ K) (hKM : K < M)
    (hstride : keepXthMatch rnd M K = F32.fin ((M : ℚ) / K))
    (hidx : ∀ i : ℕ, i < M → rnd i = i) :
    retainedIndices (matchesMaskWith rnd M K) = (List.range K).map (windowStart M K) := by
  rw [matchesMaskWith_eq, hstride, retainedIndices_map_range]
  have hs1 : ((List.range M).filter (fun i => keptAt rnd (F32.fin ((M : ℚ) / K)) i)).Sorted
      (· < ·) := (List.pairwise_lt_range M).filter _
  have hs2 : ((List.range K).map (windowStart M K)).Sorted (· < ·) := by
    unfold List.Sorted
    rw [List.pairwise_map]
    exact (List.pairwise_lt_range K).imp (fun h => windowStart_strictMono hK hKM h)
  apply List.eq_of_perm_of_sorted _ hs1 hs2
  rw [List.perm_ext_iff_of_nodup hs1.nodup hs2.nodup]
  intro i
  rw [List.mem_filter, List.mem_range, List.mem_map]
  rw [keptAt_exact_iff_windowStart hK hKM hidx]
  constructor
  · rintro ⟨j, hj, rfl⟩
    exact ⟨j, List.mem_range.mpr hj, rfl⟩
  · rintro ⟨j, hj, rfl⟩
    exact ⟨j, List.mem_range.mp hj, rfl⟩

theorem count_true_eq_length_retained (mask : List Bool) :
    mask.count true = (retainedIndices mask).length := by
  unfold retainedIndices
  induction mask using List.reverseRecOn with
  | nil => simp
  | append_singleton l b ih =>
    rw [List.count_append, List.length_append, List.length_singleton, List.range_succ,
      List.filter_append, List.length_append, ih]
    congr 1
    · congr 1
      apply List.filter_congr
      intro i hi
      rw [List.mem_range] at hi
      simp [List.getD_eq_getElem?_getD, List.getElem?_append_left, hi]
    · cases b <;> simp [List.getD_eq_getElem?_getD]

/-- Consecutive window starts are `⌊M / K⌋` or `⌈M / K⌉` apart. -/
theorem windowStart_gap (M j : ℕ) {K : ℕ} (hK : 1 ≤ K) :
    windowStart M K (j + 1) - windowStart M K j = M / K
      ∨ windowStart M K (j + 1) - windowStart M K j = (M + K - 1) / K := by
  have hKpos : 0 < K := by omega
  have e1 : (j + 1) * M + K - 1 = (j * M + K - 1) + M := by
    have : (j + 1) * M = j * M + M := by ring
    omega
  have e2 : M + K - 1 = M + (K - 1) := by omega
  have hm1 : (K - 1) / K = 0 := Nat.div_eq_of_lt (by omega)
  have hm2 : (K - 1) % K = K - 1 := Nat.mod_eq_of_lt (by omega)
  have hr1 : (j * M + K - 1) % K < K := Nat.mod_lt _ hKpos
  have hr2 : M % K < K := Nat.mod_lt _ hKpos
  have hA := Nat.add_div (a := j * M + K - 1) (b := M) hKpos
  have hB := Nat.add_div (a := M) (b := K - 1) hKpos
  rw [hm1, hm2] at hB
  unfold windowStart
  rw [e1, e2]
  by_cases hc : K ≤ (j * M + K - 1) % K + M % K
  · right
    rw [if_pos hc] at hA
    rw [if_pos (by omega)] at hB
    rw [hA, hB]
    generalize (j * M + K - 1) / K = a
    generalize M / K = b
    omega
  · left
    rw [if_neg hc] at hA
    rw [hA]
    generalize (j * M + K - 1) / K = a
    generalize M / K = b
    omega

/-! ## The extraction loop -/

theorem vecRead_eq_some {v : List KeyPoint} {idx : ℤ} (h0 : 0 ≤ idx) (h1 : idx < v.length) :
    ∃ k, vecRead v idx = some k := by
  have hlt : idx.toNat < v.length := by omega
  exact ⟨v[idx.toNat], by simp [vecRead, h0, hlt]⟩

theorem vecRead_eq_none {v : List KeyPoint} {idx : ℤ} (h : OutOfRange v idx) :
    vecRead v idx = none := by
  unfold vecRead
  unfold OutOfRange at h
  by_cases h0 : 0 ≤ idx
  · rw [if_pos h0, List.getElem?_eq_none_iff]
    omega
  · rw [if_neg h0]

theorem vecRead_isSome_iff {v : List KeyPoint} {idx : ℤ} :
    (vecRead v idx).isSome = true ↔ (0 ≤ idx ∧ idx < v.length) := by
  constructor
  · intro h
    by_contra hcon
    rw [vecRead_eq_none hcon] at h
    simp at h
  · rintro ⟨h0, h1⟩
    obtain ⟨k, hk⟩ := vecRead_eq_some h0 h1
    simp [hk]

/-- When every index is in range the loop returns, having appended one keypoint
per correspondence to each vector. -/
theorem extractLoop_inRange (keypL keypR : List KeyPoint) :
    ∀ (ms : List DMatch) (st : Extracted), (∀ m ∈ ms, m.InRange keypL keypR) →
      extractLoop keypL keypR ms st = Outcome.returned
        { matchedPointsLeft := st.matchedPointsLeft ++ readAll keypL (ms.map DMatch.queryIdx)
          matchedPointsRight := st.matchedPointsRight ++ readAll keypR (ms.map DMatch.trainIdx)
          rows := st.rows ++ rowsOf keypL keypR ms } := by
  intro ms
  induction ms with
  | nil => intro st _; simp [extractLoop, readAll, rowsOf]
  | cons m ms ih =>
    intro st hv
    obtain ⟨⟨hq0, hq1⟩, ⟨ht0, ht1⟩⟩ := hv m (List.mem_cons_self m ms)
    obtain ⟨l, hl⟩ := vecRead_eq_some hq0 hq1
    obtain ⟨r, hr⟩ := vecRead_eq_some ht0 ht1
    have hstep : extractStep keypL keypR st m = Outcome.returned
        { matchedPointsLeft := st.matchedPointsLeft ++ [l]
          matchedPointsRight := st.matchedPointsRight ++ [r]
          rows := st.rows ++ [(l.pt, r.pt)] } := by
      simp [extractStep, hl, hr]
    rw [extractLoop, hstep]
    simp only
    rw [ih _ (fun m' hm' => hv m' (List.mem_cons_of_mem m hm'))]
    simp [readAll, rowsOf, hl, hr]

/-- When some index is out of range the loop ends in an unchecked read at an
out-of-range index of one of the correspondences. -/
theorem extractLoop_outOfRange (keypL keypR : List KeyPoint) :
    ∀ (ms : List DMatch) (st : Extracted), (∃ m ∈ ms, ¬ m.InRange keypL keypR) →
      ∃ m ∈ ms,
        (extractLoop keypL keypR ms st = Outcome.undefinedRead Side.left m.queryIdx
            ∧ OutOfRange keypL m.queryIdx)
        ∨ (extractLoop keypL keypR ms st = Outcome.undefinedRead Side.right m.trainIdx
            ∧ OutOfRange keypR m.trainIdx) := by
  intro ms
  induction ms with
  | nil => intro st h; obtain ⟨m, hm, _⟩ := h; simp at hm
  | cons m ms ih =>
    intro st hbad
    by_cases hq : OutOfRange keypL m.queryIdx
    · refine ⟨m, List.mem_cons_self m ms, Or.inl ⟨?_, hq⟩⟩
      simp [extractLoop, extractStep, vecRead_eq_none hq]
    · have hq' : 0 ≤ m.queryIdx ∧ m.queryIdx < keypL.length := by
        unfold OutOfRange at hq
        exact not_not.mp hq
      obtain ⟨l, hl⟩ := vecRead_eq_some hq'.1 hq'.2
      by_cases ht : OutOfRange keypR m.trainIdx
      · refine ⟨m, List.mem_cons_self m ms, Or.inr ⟨?_, ht⟩⟩
        simp [extractLoop, extractStep, hl, vecRead_eq_none ht]
      · have ht' : 0 ≤ m.trainIdx ∧ m.trainIdx < keypR.length := by
          unfold OutOfRange at ht
          exact not_not.mp ht
        obtain ⟨r, hr⟩ := vecRead_eq_some ht'.1 ht'.2
        have hrest : ∃ m' ∈ ms, ¬ m'.InRange keypL keypR := by
          obtain ⟨m', hm', hbad'⟩ := hbad
          rcases List.mem_cons.mp hm' with rfl | hmem
          · exact absurd ⟨hq', ht'⟩ hbad'
          · exact ⟨m', hmem, hbad'⟩
        have hstep : extractStep keypL keypR st m = Outcome.returned
            { matchedPointsLeft := st.matchedPointsLeft ++ [l]
              matchedPointsRight := st.matchedPointsRight ++ [r]
              rows := st.rows ++ [(l.pt, r.pt)] } := by
          simp [extractStep, hl, hr]
        obtain ⟨m', hm', hres⟩ := ih _ hrest
        refine ⟨m', List.mem_cons_of_mem m hm', ?_⟩
        rw [extractLoop, hstep]
        exact hres

theorem readAll_length {v : List KeyPoint} {idxs : List ℤ}
    (h : ∀ i ∈ idxs, 0 ≤ i ∧ i < v.length) : (readAll v idxs).length = idxs.length := by
  induction idxs with
  | nil => rfl
  | cons i is ih =>
    obtain ⟨k, hk⟩ := vecRead_eq_some (h i (List.mem_cons_self i is)).1
      (h i (List.mem_cons_self i is)).2
    have := ih (fun j hj => h j (List.mem_cons_of_mem i hj))
    simp only [readAll] at this ⊢
    rw [List.filterMap_cons, hk]
    simp [this]

/-- The result of `showMatches` when every index is in range. -/
theorem showMatches_inRange {Img : Type} (matchList : List DMatch) (keypL keypR : List KeyPoint)
    (imgs : Img × Img) (keepNMatches : ℕ) (hv : ∀ m ∈ matchList, m.InRange keypL keypR) :
    showMatches matchList keypL keypR imgs keepNMatches = Outcome.returned
      { matchesMask := matchesMask matchList.length keepNMatches
        points1 := (List.replicate matchList.length KeyPoint.blank
          ++ readAll keypL (matchList.map DMatch.queryIdx)).map KeyPoint.pt
        points2 := (List.replicate matchList.length KeyPoint.blank
          ++ readAll keypR (matchList.map DMatch.trainIdx)).map KeyPoint.pt
        rows := rowsOf keypL keypR matchList
        calls := [Call.findFundamentalMat
            ((List.replicate matchList.length KeyPoint.blank
              ++ readAll keypL (matchList.map DMatch.queryIdx)).map KeyPoint.pt)
            ((List.replicate matchList.length KeyPoint.blank
              ++ readAll keypR (matchList.map DMatch.trainIdx)).map KeyPoint.pt),
          Call.drawMatches imgs.1 keypL imgs.2 keypR matchList
            (matchesMask matchList.length keepNMatches),
          Call.imshow, Call.waitKey, Call.destroyWindow]
        ret := 0 } := by
  unfold showMatches
  simp only
  rw [extractLoop_inRange keypL keypR matchList _ hv]
  simp

theorem allLeft_eq (matchList : List DMatch) (keypL : List KeyPoint) :
    allLeft matchList keypL = (readAll keypL (matchList.map DMatch.queryIdx)).map KeyPoint.pt := by
  unfold allLeft readAll
  induction matchList with
  | nil => rfl
  | cons m ms ih =>
    simp only [List.map_cons, List.filterMap_cons]
    cases h : vecRead keypL m.queryIdx <;> simp [ih]

theorem allRight_eq (matchList : List DMatch) (keypR : List KeyPoint) :
    allRight matchList keypR = (readAll keypR (matchList.map DMatch.trainIdx)).map KeyPoint.pt := by
  unfold allRight readAll
  induction matchList with
  | nil => rfl
  | cons m ms ih =>
    simp only [List.map_cons, List.filterMap_cons]
    cases h : vecRead keypR m.trainIdx <;> simp [ih]

/-! ## The pair loop of `showGTM` -/

theorem readIndices_append {Img : Type} (a b : List (Event Img)) :
    readIndices (a ++ b) = readIndices a ++ readIndices b := by
  simp [readIndices, List.filterMap_append]

theorem shownIndices_append {Img : Type} (a b : List (Event Img)) :
    shownIndices (a ++ b) = shownIndices a ++ shownIndices b := by
  simp [shownIndices, List.filterMap_append]

/-- The loop over valid records returns; it reads every index, calls
`showMatches` for the indices read successfully, and ends with `err` set to -1
when a read failed and unchanged otherwise. -/
theorem pairLoop_valid {Img : Type} (env : Env Img) (fl fr fg : List String) :
    ∀ (ks : List ℕ) (err : ℤ) (ev : List (Event Img)),
      (∀ k ∈ ks, ∀ r, env.readGTMatchesDisk (fg.getD k "") = some r → r.Valid) →
      ∃ ev', pairLoop env fl fr fg ks err ev
          = RunOutcome.returned (if ks.all (readOk env fg) then err else -1) (ev ++ ev')
        ∧ readIndices ev' = ks
        ∧ shownIndices ev' = ks.filter (readOk env fg) := by
  intro ks
  induction ks with
  | nil =>
    intro err ev _
    exact ⟨[], by simp [pairLoop], rfl, rfl⟩
  | cons k ks ih =>
    intro err ev hv
    have hv' : ∀ k' ∈ ks, ∀ r, env.readGTMatchesDisk (fg.getD k' "") = some r → r.Valid :=
      fun k' hk' => hv k' (List.mem_cons_of_mem k hk')
    cases hread : env.readGTMatchesDisk (fg.getD k "") with
    | none =>
      have hok : readOk env fg k = false := by
        unfold readOk
        rw [hread]
        rfl
      obtain ⟨ev', h1, h2, h3⟩ := ih (-1)
        (ev ++ [Event.imread (fl.getD k ""), Event.imread (fr.getD k "")]
          ++ [Event.readGTM k (fg.getD k "") false,
            Event.print ("Error while reading GTM file " ++ fg.getD k "")]) hv'
      refine ⟨[Event.imread (fl.getD k ""), Event.imread (fr.getD k ""),
          Event.readGTM k (fg.getD k "") false,
          Event.print ("Error while reading GTM file " ++ fg.getD k "")] ++ ev', ?_, ?_, ?_⟩
      · rw [pairLoop]
        simp only [hread]
        rw [h1]
        simp [hok]
      · rw [readIndices_append, h2]
        simp [readIndices]
      · rw [shownIndices_append, h3]
        simp [shownIndices, hok]
    | some r =>
      have hok : readOk env fg k = true := by
        unfold readOk
        rw [hread]
        rfl
      have hval : ∀ m ∈ r.matchesGT, m.InRange r.keypL r.keypR :=
        hv k (List.mem_cons_self k ks) r hread
      have hshow := showMatches_inRange r.matchesGT r.keypL r.keypR
        (env.imread (fl.getD k ""), env.imread (fr.getD k "")) ⌊r.positivesGT⌋₊ hval
      generalize hres : ({ matchesMask := matchesMask r.matchesGT.length ⌊r.positivesGT⌋₊
                           points1 := _, points2 := _, rows := _, calls := _, ret := 0 } :
          ShowResult Img) = res at hshow
      obtain ⟨ev', h1, h2, h3⟩ := ih err
        (ev ++ [Event.imread (fl.getD k ""), Event.imread (fr.getD k "")]
          ++ [Event.readGTM k (fg.getD k "") true,
            Event.print ("Succesfully read GTM file " ++ fg.getD k "")]
          ++ [Event.showMatches k res]) hv'
      refine ⟨[Event.imread (fl.getD k ""), Event.imread (fr.getD k ""),
          Event.readGTM k (fg.getD k "") true,
          Event.print ("Succesfully read GTM file " ++ fg.getD k ""),
          Event.showMatches k res] ++ ev', ?_, ?_, ?_⟩
      · rw [pairLoop]
        simp only [hread, hshow]
        rw [h1]
        simp [hok]
      · rw [readIndices_append, h2]
        simp [readIndices]
      · rw [shownIndices_append, h3]
        simp [shownIndices, hok]

/-- Past both gates, `showGTM` is the pair loop over all indices. -/
theorem showGTM_gated {Img : Type} (env : Env Img)
    (img_path l_img_pref r_img_pref gtm_path : String) ( gtm_postfix : String)
    (fl fr fg : List String)
    (himg : env.loadImgStereoSequence img_path l_img_pref
      (if r_img_pref.isEmpty then l_img_pref else r_img_pref) = (0, fl, fr))
    (hfl : fl ≠ []) (hfr : fr ≠ []) (hlen : fl.length = fr.length)
    (hgtm : env.loadGTMSequence gtm_path gtm_postfix = (0, fg))
    (hfg : fg ≠ []) (hglen : fg.length = fl.length) :
    showGTM env img_path l_img_pref r_img_pref gtm_path gtm_postfix
      = pairLoop env fl fr fg (List.range fl.length) 0 [] := by
  unfold showGTM
  simp only [himg, hgtm]
  rw [if_neg, if_neg]
  · simp [hfg, hglen]
  · simp [hfl, hfr, hlen]

theorem all_readOk_iff {Img : Type} (env : Env Img) (fg : List String) (n : ℕ) :
    (List.range n).all (readOk env fg) = true
      ↔ ∀ k, k < n → env.readGTMatchesDisk (fg.getD k "") ≠ none := by
  simp only [List.all_eq_true, List.mem_range, readOk]
  constructor
  · intro h k hk hnone
    have := h k hk
    rw [hnone] at this
    simp at this
  · intro h k hk
    cases hr : env.readGTMatchesDisk (fg.getD k "") with
    | none => exact absurd hr (h k hk)
    | some r => rfl

theorem length_filter_add_length_filter_not (p : ℕ → Bool) (l : List ℕ) :
    (l.filter p).length + (l.filter (fun k => !p k)).length = l.length := by
  induction l with
  | nil => rfl
  | cons a l ih =>
    cases h : p a <;> simp [List.filter_cons, h] <;> omega

/-! ## Claims on the mask that hold for every size -/

/-- C1 (decimation identity): for a correspondence list of size `M` and a cap
`K` with `M ≤ K`, the mask that `showMatches` computes has length `M` and is
true at every position. -/
theorem C1_decimation_identity (M K : ℕ) (h : M ≤ K) :
    (matchesMask M K).length = M ∧ ∀ i, i < M → (matchesMask M K)[i]? = some true := by
  have hs : keepXthMatch roundF32 M K = F32.fin 1 := by
    unfold keepXthMatch
    rw [if_neg (by omega)]
  refine ⟨matchesMaskWith_length _ _ _, ?_⟩
  intro i hi
  unfold matchesMask
  rw [matchesMaskWith_eq, hs]
  simp [hi, keptAt_one]

theorem C1_decimation_identity_witness :
    (matchesMask 3 7).length = 3 ∧ ∀ i, i < 3 → (matchesMask 3 7)[i]? = some true :=
  C1_decimation_identity 3 7 (by decide)

/-- C3 (first entry always retained): for a non-empty correspondence list and a
cap `K ≥ 1`, whether or not the list is longer than `K`, position 0 of the
mask that `showMatches` computes is true. -/
theorem C3_first_entry_retained (M K : ℕ) (hM : 0 < M) (_hK : 1 ≤ K) :
    (matchesMask M K)[0]? = some true := by
  unfold matchesMask
  rw [matchesMaskWith_eq]
  simp [hM, keptAt_zero _ _ roundF32_zero]

theorem C3_first_entry_retained_witness : (matchesMask 500 50)[0]? = some true :=
  C3_first_entry_retained 500 50 (by decide) (by decide)

/-! ## C2: the retained count -/

/-- Three set entries give a count of at least three. -/
theorem three_le_count_true (f : ℕ → Bool) (M a b c : ℕ) (hab : a < b) (hbc : b < c)
    (hc : c < M) (ha : f a = true) (hb : f b = true) (hc' : f c = true) :
    3 ≤ ((List.range M).map f).count true := by
  have hnd : ([a, b, c] : List ℕ).Nodup := by
    simp only [List.nodup_cons, List.mem_cons, List.mem_singleton, List.not_mem_nil,
      not_false_eq_true, List.nodup_nil, and_true, not_or]
    omega
  have hsub : [a, b, c] ⊆ (List.range M).filter (fun i => f i) := by
    intro x hx
    simp only [List.mem_cons, List.mem_singleton, List.not_mem_nil, or_false] at hx
    rw [List.mem_filter, List.mem_range]
    rcases hx with rfl | rfl | rfl
    · exact ⟨by omega, ha⟩
    · exact ⟨by omega, hb⟩
    · exact ⟨hc, hc'⟩
  have hlen := (List.subperm_of_subset hnd hsub).length_le
  have hcount : ((List.range M).map f).count true = ((List.range M).filter (fun i => f i)).length := by
    rw [List.count, List.countP_map, List.countP_eq_length_filter]
    congr 1
    apply List.filter_congr
    intro x _
    simp
  rw [hcount]
  simpa using hlen

theorem roundHalfEven_tie_even (f : ℤ) (hf : f % 2 = 0) :
    roundHalfEven ((f : ℚ) + 1 / 2) = f := by
  have hfl : ⌊(f : ℚ) + 1 / 2⌋ = f := by
    rw [Int.floor_eq_iff]
    constructor <;> linarith
  unfold roundHalfEven
  rw [hfl, if_neg (by norm_num), if_neg (by norm_num), if_pos hf]

theorem roundHalfEven_tie_odd (f : ℤ) (hf : f % 2 = 1) :
    roundHalfEven ((f : ℚ) + 1 / 2) = f + 1 := by
  have hfl : ⌊(f : ℚ) + 1 / 2⌋ = f := by
    rw [Int.floor_eq_iff]
    constructor <;> linarith
  unfold roundHalfEven
  rw [hfl, if_neg (by norm_num), if_neg (by norm_num), if_neg (by omega)]

/-- Integers in `[2^24, 2^25)` lie in the binade with unit in the last place 2. -/
theorem roundF32_binade24 (n : ℕ) (hlo : 2 ^ 24 ≤ n) (hhi : n < 2 ^ 25) :
    roundF32 (n : ℚ) = (roundHalfEven ((n : ℚ) / 2) : ℚ) * 2 := by
  have hx : (0 : ℚ) < n := by
    have : 0 < n := by omega
    exact_mod_cast this
  have hlog : Int.log 2 (n : ℚ) = 24 := by
    rw [Int.log_natCast, Nat.log_eq_of_pow_le_of_lt_pow hlo hhi]
    rfl
  unfold roundF32
  rw [if_neg (not_le.mpr hx), hlog]
  norm_num

theorem roundF32_16777217 : roundF32 ((16777217 : ℕ) : ℚ) = 16777216 := by
  rw [roundF32_binade24 _ (by norm_num) (by norm_num)]
  have : (((16777217 : ℕ) : ℚ)) / 2 = ((8388608 : ℤ) : ℚ) + 1 / 2 := by norm_num
  rw [this, roundHalfEven_tie_even _ (by decide)]
  norm_num

theorem roundF32_16777218 : roundF32 ((16777218 : ℕ) : ℚ) = 16777218 := by
  rw [roundF32_binade24 _ (by norm_num) (by norm_num)]
  have : (((16777218 : ℕ) : ℚ)) / 2 = ((8388609 : ℤ) : ℚ) := by norm_num
  rw [this, roundHalfEven_intCast]
  norm_num

theorem roundF32_16777219 : roundF32 ((16777219 : ℕ) : ℚ) = 16777220 := by
  rw [roundF32_binade24 _ (by norm_num) (by norm_num)]
  have : (((16777219 : ℕ) : ℚ)) / 2 = ((8388609 : ℤ) : ℚ) + 1 / 2 := by norm_num
  rw [this, roundHalfEven_tie_odd _ (by decide)]
  norm_num

theorem roundF32_16777220 : roundF32 ((16777220 : ℕ) : ℚ) = 16777220 := by
  rw [roundF32_binade24 _ (by norm_num) (by norm_num)]
  have : (((16777220 : ℕ) : ℚ)) / 2 = ((8388610 : ℤ) : ℚ) := by norm_num
  rw [this, roundHalfEven_intCast]
  norm_num

theorem keepXthMatch_16777220_1 : keepXthMatch roundF32 16777220 1 = F32.fin 16777220 := by
  unfold keepXthMatch fdiv
  rw [if_pos (by norm_num), roundF32_16777220,
    roundF32_natCast_of_le (by norm_num : 1 ≤ 2 ^ 24)]
  have h : ((16777220 : ℚ)) / ((1 : ℕ) : ℚ) = ((16777220 : ℕ) : ℚ) := by norm_num
  rw [if_neg (by norm_num), h, roundF32_16777220]

theorem floor_eq_zero_of_lt {a b : ℚ} (ha : 0 ≤ a) (hab : a < b) : ⌊a / b⌋ = 0 := by
  have hb : 0 < b := lt_of_le_of_lt ha hab
  rw [Int.floor_eq_iff]
  constructor
  · simpa using div_nonneg ha (le_of_lt hb)
  · simpa using (div_lt_one hb).mpr hab

theorem keptAt_16777217 : keptAt roundF32 (F32.fin 16777220) 16777217 = true := by
  have hold : oldAt roundF32 (F32.fin 16777220) 16777217
      = remAt roundF32 (F32.fin 16777220) 16777216 := rfl
  have h6 : roundF32 ((16777216 : ℕ) : ℚ) = ((16777216 : ℕ) : ℚ) :=
    roundF32_natCast_of_le (by norm_num)
  unfold keptAt
  rw [hold]
  unfold remAt
  rw [h6, roundF32_16777217]
  simp

theorem keptAt_16777219 : keptAt roundF32 (F32.fin 16777220) 16777219 = true := by
  have hold : oldAt roundF32 (F32.fin 16777220) 16777219
      = remAt roundF32 (F32.fin 16777220) 16777218 := rfl
  unfold keptAt
  rw [hold]
  unfold remAt
  rw [roundF32_16777218, roundF32_16777219]
  have h1 : ⌊(16777218 : ℚ) / 16777220⌋ = 0 := floor_eq_zero_of_lt (by norm_num) (by norm_num)
  simp [fmodf, h1]

/-! ## Sizes beyond `2^24` -/

theorem fmodf_fin_nonneg (x : ℚ) {s : ℚ} (hs : 0 < s) : 0 ≤ fmodf x (F32.fin s) := by
  have h1 : (⌊x / s⌋ : ℚ) ≤ x / s := Int.floor_le _
  have h2 : s * (⌊x / s⌋ : ℚ) ≤ s * (x / s) := mul_le_mul_of_nonneg_left h1 (le_of_lt hs)
  have h3 : s * (x / s) = x := by field_simp
  simp only [fmodf]
  linarith

theorem oldAt_fin_nonneg (rnd : ℚ → ℚ) {s : ℚ} (hs : 0 < s) (i : ℕ) :
    0 ≤ oldAt rnd (F32.fin s) i := by
  cases i with
  | zero => exact le_refl _
  | succ i => exact fmodf_fin_nonneg _ hs

/-- With the stride 2 every index in `[2^24, 2^25)` is retained: its conversion
to `float` is even, so the remainder is zero. -/
theorem keptAt_two_binade24 (i : ℕ) (hlo : 2 ^ 24 ≤ i) (hhi : i < 2 ^ 25) :
    keptAt roundF32 (F32.fin 2) i = true := by
  have hrem : remAt roundF32 (F32.fin 2) i = 0 := by
    unfold remAt
    rw [roundF32_binade24 i hlo hhi]
    simp [fmodf]
    ring
  unfold keptAt
  rw [hrem, decide_eq_true_iff]
  exact oldAt_fin_nonneg _ (by norm_num) i

theorem keptAt_two_two : keptAt roundF32 (F32.fin 2) 2 = true := by
  have hold : oldAt roundF32 (F32.fin 2) 2 = remAt roundF32 (F32.fin 2) 1 := rfl
  have h1 : roundF32 ((1 : ℕ) : ℚ) = ((1 : ℕ) : ℚ) := roundF32_natCast_of_le (by norm_num)
  have h2 : roundF32 ((2 : ℕ) : ℚ) = ((2 : ℕ) : ℚ) := roundF32_natCast_of_le (by norm_num)
  unfold keptAt
  rw [hold]
  unfold remAt
  rw [h1, h2]
  have hfl : ⌊(2 : ℚ)⁻¹⌋ = 0 := by
    rw [Int.floor_eq_iff]
    norm_num
  simp [fmodf, hfl]

theorem roundF32_pow25 : roundF32 ((2 ^ 25 : ℕ) : ℚ) = 2 ^ 25 := by
  have hx : (0 : ℚ) < ((2 ^ 25 : ℕ) : ℚ) := by norm_num
  have hlog : Int.log 2 (((2 ^ 25 : ℕ) : ℚ)) = 25 := by
    rw [Int.log_natCast, Nat.log_pow (by norm_num)]
    rfl
  have hz : ((2 ^ 25 : ℕ) : ℚ) / (2 : ℚ) ^ (Int.log 2 (((2 ^ 25 : ℕ) : ℚ)) - 23)
      = ((2 ^ 23 : ℕ) : ℤ) := by
    rw [hlog]
    norm_num
  rw [roundF32_of_scaled_int hx _ hz]
  norm_num

theorem keepXthMatch_pow25_pow24 : keepXthMatch roundF32 (2 ^ 25) (2 ^ 24) = F32.fin 2 := by
  have h24 : roundF32 ((2 ^ 24 : ℕ) : ℚ) = 2 ^ 24 := by
    rw [roundF32_natCast_of_le le_rfl]
    norm_num
  have h2 : roundF32 ((2 : ℕ) : ℚ) = 2 := by
    rw [roundF32_natCast_of_le (by norm_num)]
    norm_num
  unfold keepXthMatch fdiv
  rw [if_pos (by norm_num), roundF32_pow25, h24, if_neg (by norm_num)]
  have h : ((2 : ℚ) ^ 25) / 2 ^ 24 = ((2 : ℕ) : ℚ) := by norm_num
  rw [h, h2]

/-- Two set entries below `N` and all entries from `N` on give a count of at
least `M - N + 2`. -/
theorem count_true_ge_of_tail (f : ℕ → Bool) (N M a b : ℕ) (hab : a < b) (hbN : b < N)
    (hNM : N ≤ M) (ha : f a = true) (hb : f b = true)
    (htail : ∀ i, N ≤ i → i < M → f i = true) :
    M - N + 2 ≤ ((List.range M).map f).count true := by
  have hnd : ([a, b] ++ List.range' N (M - N)).Nodup := by
    rw [List.nodup_append]
    refine ⟨?_, List.nodup_range' N (M - N), ?_⟩
    · simp only [List.nodup_cons, List.mem_singleton, List.not_mem_nil, not_false_eq_true,
        List.nodup_nil, and_true]
      omega
    · intro x hx hx'
      simp only [List.mem_cons, List.mem_singleton, List.not_mem_nil, or_false] at hx
      rw [List.mem_range'_1] at hx'
      omega
  have hsub : [a, b] ++ List.range' N (M - N) ⊆ (List.range M).filter (fun i => f i) := by
    intro x hx
    rw [List.mem_filter, List.mem_range]
    rcases List.mem_append.mp hx with h | h
    · simp only [List.mem_cons, List.mem_singleton, List.not_mem_nil, or_false] at h
      rcases h with rfl | rfl
      · exact ⟨by omega, ha⟩
      · exact ⟨by omega, hb⟩
    · rw [List.mem_range'_1] at h
      exact ⟨by omega, htail x h.1 (by omega)⟩
  have hlen := (List.subperm_of_subset hnd hsub).length_le
  have hcount : ((List.range M).map f).count true
      = ((List.range M).filter (fun i => f i)).length := by
    rw [List.count, List.countP_map, List.countP_eq_length_filter]
    congr 1
    apply List.filter_congr
    intro x _
    simp
  rw [hcount]
  simp only [List.length_append, List.length_cons, List.length_nil, List.length_range'] at hlen
  omega

/-- C2 (decimation cap), amended to sizes at most `2^24`: for `1 ≤ K ≤ M ≤ 2^24`
the number of true entries of the mask that `showMatches` computes differs from
`K` by at most 1. -/
theorem C2_decimation_cap (M K : ℕ) (hK : 1 ≤ K) (hKM : K ≤ M) (hM : M ≤ 2 ^ 24) :
    (K : ℤ) - 1 ≤ (((matchesMask M K).count true : ℕ) : ℤ)
      ∧ (((matchesMask M K).count true : ℕ) : ℤ) ≤ (K : ℤ) + 1 := by
  rcases Nat.eq_or_lt_of_le hKM with heq | hlt
  · subst heq
    rw [matchesMask_of_le le_rfl, List.count_replicate_self]
    omega
  · obtain ⟨n, rfl⟩ : ∃ n, M = n + 1 := ⟨M - 1, by omega⟩
    have hs := one_lt_roundF32_div hK hlt hM
    have hb := floor_div_stride_bounds hK hlt hM
    have hcount := count_keptAt hs roundF32_zero n
      (fun j hj => roundF32_natCast_of_le (by omega))
    unfold matchesMask
    rw [matchesMaskWith_eq, keepXthMatch_roundF32 hK hlt hM, hcount]
    omega

theorem C2_decimation_cap_witness :
    ((50 : ℕ) : ℤ) - 1 ≤ (((matchesMask 500 50).count true : ℕ) : ℤ)
      ∧ (((matchesMask 500 50).count true : ℕ) : ℤ) ≤ ((50 : ℕ) : ℤ) + 1 :=
  C2_decimation_cap 500 50 (by norm_num) (by norm_num) (by norm_num)

/-- C2 as stated fails beyond `2^24`, where `(float) i` is no longer exact.
With `M = 16777220` matches and the cap `K = 1`, indices 0, 16777217 and
16777219 are retained (the conversions of 16777217 and 16777219 round to
16777216 and 16777220), so at least 3 entries are true.  With `M = 2^25` and
`K = 2^24` the stride is 2 and every index from `2^24` on converts to an even
value, so more than `K + 1` entries are true. -/
theorem C2_decimation_cap_counterexample :
    (1 ≤ 1 ∧ 1 ≤ 16777220 ∧
      ¬ (((1 : ℕ) : ℤ) - 1 ≤ (((matchesMask 16777220 1).count true : ℕ) : ℤ)
          ∧ (((matchesMask 16777220 1).count true : ℕ) : ℤ) ≤ ((1 : ℕ) : ℤ) + 1))
    ∧ (1 ≤ 2 ^ 24 ∧ 2 ^ 24 ≤ 2 ^ 25 ∧
      ¬ (((2 ^ 24 : ℕ) : ℤ) - 1 ≤ (((matchesMask (2 ^ 25) (2 ^ 24)).count true : ℕ) : ℤ)
          ∧ (((matchesMask (2 ^ 25) (2 ^ 24)).count true : ℕ) : ℤ) ≤ ((2 ^ 24 : ℕ) : ℤ) + 1)) := by
  have h3 : 3 ≤ (matchesMask 16777220 1).count true := by
    unfold matchesMask
    rw [matchesMaskWith_eq, keepXthMatch_16777220_1]
    exact three_le_count_true _ 16777220 0 16777217 16777219 (by norm_num) (by norm_num)
      (by norm_num) (keptAt_zero _ _ roundF32_zero) keptAt_16777217 keptAt_16777219
  have hbig : 2 ^ 24 + 2 ≤ (matchesMask (2 ^ 25) (2 ^ 24)).count true := by
    unfold matchesMask
    rw [matchesMaskWith_eq, keepXthMatch_pow25_pow24]
    have := count_true_ge_of_tail (keptAt roundF32 (F32.fin 2)) (2 ^ 24) (2 ^ 25) 0 2
      (by norm_num) (by norm_num) (by norm_num) (keptAt_zero _ _ roundF32_zero) keptAt_two_two
      (fun i h1 h2 => keptAt_two_binade24 i h1 h2)
    have e : 2 ^ 25 - 2 ^ 24 + 2 = 2 ^ 24 + 2 := by norm_num
    rw [e] at this
    exact this
  refine ⟨⟨le_rfl, by norm_num, ?_⟩, ⟨by norm_num, by norm_num, ?_⟩⟩
  · omega
  · rintro ⟨_, h2⟩
    have h2' : (matchesMask (2 ^ 25) (2 ^ 24)).count true ≤ 2 ^ 24 + 1 := by exact_mod_cast h2
    exact absurd (le_trans hbig h2') (by norm_num)

/-! ## Claims on the extraction and the estimator call -/

theorem matchesMask_two_one : matchesMask 2 1 = [true, false] := by
  have hs : keepXthMatch roundF32 2 1 = F32.fin 2 := by
    rw [keepXthMatch_roundF32 (by norm_num) (by norm_num) (by norm_num)]
    have h : (((2 : ℕ) : ℚ)) / ((1 : ℕ) : ℚ) = ((2 : ℕ) : ℚ) := by norm_num
    rw [h, roundF32_natCast_of_le (by norm_num)]
    norm_num
  have h1 : roundF32 ((1 : ℕ) : ℚ) = 1 := by
    rw [roundF32_natCast_of_le (by norm_num)]
    norm_num
  have hk1 : keptAt roundF32 (F32.fin 2) 1 = false := by
    have hold : oldAt roundF32 (F32.fin 2) 1 = remAt roundF32 (F32.fin 2) 0 := rfl
    unfold keptAt
    rw [hold]
    unfold remAt
    rw [h1]
    have hfl' : ⌊(2 : ℚ)⁻¹⌋ = 0 := by
      rw [Int.floor_eq_iff]
      norm_num
    simp [fmodf, roundF32_zero, hfl']
  unfold matchesMask
  rw [matchesMaskWith_eq, hs]
  simp [List.range_succ, keptAt_zero _ _ roundF32_zero, hk1]

/-- C4 (extractor output), amended: when all indices are in range, the two
coordinate sequences that `showMatches` hands to the fundamental-matrix
estimator have equal length and end with the endpoint coordinates of all `M`
correspondences, retained or not (the mask is not consulted), in original list
order, so that equal positions come from the same correspondence. -/
theorem C4_extractor_output {Img : Type} (matchList : List DMatch) (keypL keypR : List KeyPoint)
    (imgs : Img × Img) (keepNMatches : ℕ) (hv : ∀ m ∈ matchList, m.InRange keypL keypR) :
    ∃ r : ShowResult Img,
      showMatches matchList keypL keypR imgs keepNMatches = Outcome.returned r
        ∧ Call.findFundamentalMat r.points1 r.points2 ∈ r.calls
        ∧ r.points1.length = r.points2.length
        ∧ allLeft matchList keypL <:+ r.points1
        ∧ allRight matchList keypR <:+ r.points2
        ∧ (allLeft matchList keypL).length = matchList.length
        ∧ (allRight matchList keypR).length = matchList.length := by
  have hL : (readAll keypL (matchList.map DMatch.queryIdx)).length = matchList.length := by
    rw [readAll_length, List.length_map]
    intro i hi
    obtain ⟨m, hm, rfl⟩ := List.mem_map.mp hi
    exact (hv m hm).1
  have hR : (readAll keypR (matchList.map DMatch.trainIdx)).length = matchList.length := by
    rw [readAll_length, List.length_map]
    intro i hi
    obtain ⟨m, hm, rfl⟩ := List.mem_map.mp hi
    exact (hv m hm).2
  refine ⟨_, showMatches_inRange matchList keypL keypR imgs keepNMatches hv, ?_, ?_, ?_, ?_, ?_, ?_⟩
  · simp
  · simp [hL, hR]
  · simp only [allLeft_eq, List.map_append]
    exact List.suffix_append _ _
  · simp only [allRight_eq, List.map_append]
    exact List.suffix_append _ _
  · rw [allLeft_eq, List.length_map, hL]
  · rw [allRight_eq, List.length_map, hR]

theorem C4_extractor_output_witness :
    ∃ r : ShowResult Unit,
      showMatches [⟨0, 0⟩, ⟨1, 1⟩] [⟨⟨1, 2⟩⟩, ⟨⟨3, 4⟩⟩] [⟨⟨5, 6⟩⟩, ⟨⟨7, 8⟩⟩] ((), ()) 1
          = Outcome.returned r
        ∧ Call.findFundamentalMat r.points1 r.points2 ∈ r.calls
        ∧ r.points1.length = r.points2.length
        ∧ allLeft [⟨0, 0⟩, ⟨1, 1⟩] [⟨⟨1, 2⟩⟩, ⟨⟨3, 4⟩⟩] <:+ r.points1
        ∧ allRight [⟨0, 0⟩, ⟨1, 1⟩] [⟨⟨5, 6⟩⟩, ⟨⟨7, 8⟩⟩] <:+ r.points2
        ∧ (allLeft [⟨0, 0⟩, ⟨1, 1⟩] [⟨⟨1, 2⟩⟩, ⟨⟨3, 4⟩⟩]).length
            = ([⟨0, 0⟩, ⟨1, 1⟩] : List DMatch).length
        ∧ (allRight [⟨0, 0⟩, ⟨1, 1⟩] [⟨⟨5, 6⟩⟩, ⟨⟨7, 8⟩⟩]).length
            = ([⟨0, 0⟩, ⟨1, 1⟩] : List DMatch).length :=
  C4_extractor_output [⟨0, 0⟩, ⟨1, 1⟩] [⟨⟨1, 2⟩⟩, ⟨⟨3, 4⟩⟩] [⟨⟨5, 6⟩⟩, ⟨⟨7, 8⟩⟩] ((), ()) 1
    (by decide)

/-- C4 as stated fails: for two in-range correspondences and the cap 1 the mask
is `[true, false]`, one correspondence is retained with left endpoint `(1, 2)`,
but the left sequence handed to the estimator has four entries: two blank
points, then the left endpoints of both correspondences. -/
theorem C4_extractor_output_counterexample :
    (∀ m ∈ ([⟨0, 0⟩, ⟨1, 1⟩] : List DMatch),
        m.InRange [⟨⟨1, 2⟩⟩, ⟨⟨3, 4⟩⟩] [⟨⟨5, 6⟩⟩, ⟨⟨7, 8⟩⟩])
      ∧ ∃ r : ShowResult Unit,
        showMatches [⟨0, 0⟩, ⟨1, 1⟩] [⟨⟨1, 2⟩⟩, ⟨⟨3, 4⟩⟩] [⟨⟨5, 6⟩⟩, ⟨⟨7, 8⟩⟩] ((), ()) 1
            = Outcome.returned r
          ∧ r.matchesMask = [true, false]
          ∧ retainedLeft [⟨0, 0⟩, ⟨1, 1⟩] [⟨⟨1, 2⟩⟩, ⟨⟨3, 4⟩⟩] r.matchesMask = [⟨1, 2⟩]
          ∧ r.points1 = [⟨0, 0⟩, ⟨0, 0⟩, ⟨1, 2⟩, ⟨3, 4⟩]
          ∧ r.points1 ≠ retainedLeft [⟨0, 0⟩, ⟨1, 1⟩] [⟨⟨1, 2⟩⟩, ⟨⟨3, 4⟩⟩] r.matchesMask
          ∧ r.points1.length ≠ r.matchesMask.count true := by
  have hv : ∀ m ∈ ([⟨0, 0⟩, ⟨1, 1⟩] : List DMatch),
      m.InRange [⟨⟨1, 2⟩⟩, ⟨⟨3, 4⟩⟩] [⟨⟨5, 6⟩⟩, ⟨⟨7, 8⟩⟩] := by decide
  refine ⟨hv, _, showMatches_inRange _ _ _ _ _ hv, ?_, ?_, ?_, ?_, ?_⟩
  · exact matchesMask_two_one
  · show retainedLeft _ _ (matchesMask 2 1) = _
    rw [matchesMask_two_one]
    simp [retainedLeft, vecRead]
  · simp [readAll, vecRead, KeyPoint.blank]
  · show _ ≠ retainedLeft _ _ (matchesMask 2 1)
    rw [matchesMask_two_one]
    simp [retainedLeft, vecRead, readAll]
  · show _ ≠ (matchesMask 2 1).count true
    rw [matchesMask_two_one]
    simp [readAll, vecRead]

/-- C5 (bounds enforcement), amended: when some correspondence has an index
outside its keypoint list (negative indices included), `showMatches` makes no
bounds check; its run reaches an unchecked `operator[]` read at an out-of-range
index of one of the correspondences, where its behaviour is undefined. -/
theorem C5_bounds_unchecked {Img : Type} (matchList : List DMatch) (keypL keypR : List KeyPoint)
    (imgs : Img × Img) (keepNMatches : ℕ)
    (hbad : ∃ m ∈ matchList, ¬ m.InRange keypL keypR) :
    ∃ m ∈ matchList,
      (showMatches matchList keypL keypR imgs keepNMatches
            = Outcome.undefinedRead Side.left m.queryIdx
          ∧ OutOfRange keypL m.queryIdx)
      ∨ (showMatches matchList keypL keypR imgs keepNMatches
            = Outcome.undefinedRead Side.right m.trainIdx
          ∧ OutOfRange keypR m.trainIdx) := by
  obtain ⟨m, hm, hres⟩ := extractLoop_outOfRange keypL keypR matchList
    { matchedPointsLeft := List.replicate matchList.length KeyPoint.blank
      matchedPointsRight := List.replicate matchList.length KeyPoint.blank
      rows := [] } hbad
  refine ⟨m, hm, ?_⟩
  unfold showMatches
  simp only
  rcases hres with ⟨h, ho⟩ | ⟨h, ho⟩
  · exact Or.inl ⟨by rw [h], ho⟩
  · exact Or.inr ⟨by rw [h], ho⟩

theorem C5_bounds_unchecked_witness :
    ∃ m ∈ ([⟨0, 0⟩, ⟨0, -1⟩] : List DMatch),
      (showMatches [⟨0, 0⟩, ⟨0, -1⟩] [⟨⟨1, 2⟩⟩] [⟨⟨5, 6⟩⟩] ((), ()) 1
            = Outcome.undefinedRead Side.left m.queryIdx
          ∧ OutOfRange [⟨⟨1, 2⟩⟩] m.queryIdx)
      ∨ (showMatches [⟨0, 0⟩, ⟨0, -1⟩] [⟨⟨1, 2⟩⟩] [⟨⟨5, 6⟩⟩] ((), ()) 1
            = Outcome.undefinedRead Side.right m.trainIdx
          ∧ OutOfRange [⟨⟨5, 6⟩⟩] m.trainIdx) :=
  C5_bounds_unchecked [⟨0, 0⟩, ⟨0, -1⟩] [⟨⟨1, 2⟩⟩] [⟨⟨5, 6⟩⟩] ((), ()) 1
    ⟨⟨0, -1⟩, by simp, by decide⟩

/-- C5 as stated fails: with one correspondence whose left index is 5 and a
left keypoint list of one element, `showMatches` does not end in a diagnosed
error before the access: it reads `keypL[5]`, outside the vector. -/
theorem C5_bounds_counterexample :
    OutOfRange [⟨⟨1, 2⟩⟩] 5
      ∧ (showMatches [⟨5, 0⟩] [⟨⟨1, 2⟩⟩] [⟨⟨5, 6⟩⟩] ((), ()) 1 : Outcome (ShowResult Unit))
          = Outcome.undefinedRead Side.left 5 := by
  constructor
  · unfold OutOfRange
    decide
  · simp [showMatches, extractLoop, extractStep, vecRead]

/-- C6 (estimator below the 8-point minimum), amended: `showMatches` has no
size guard.  When all indices are in range it invokes the fundamental-matrix
estimator exactly once, on the two coordinate sequences it built, however few
point pairs there are, and returns 0. -/
theorem C6_estimator_always_invoked {Img : Type} (matchList : List DMatch)
    (keypL keypR : List KeyPoint) (imgs : Img × Img) (keepNMatches : ℕ)
    (hv : ∀ m ∈ matchList, m.InRange keypL keypR) :
    ∃ r : ShowResult Img,
      showMatches matchList keypL keypR imgs keepNMatches = Outcome.returned r
        ∧ r.ret = 0
        ∧ r.calls.filter Call.isEstimator = [Call.findFundamentalMat r.points1 r.points2] := by
  refine ⟨_, showMatches_inRange matchList keypL keypR imgs keepNMatches hv, rfl, ?_⟩
  simp [Call.isEstimator]

theorem C6_estimator_always_invoked_witness :
    ∃ r : ShowResult Unit,
      showMatches [⟨0, 0⟩, ⟨0, 0⟩, ⟨0, 0⟩, ⟨0, 0⟩, ⟨0, 0⟩] [⟨⟨1, 2⟩⟩] [⟨⟨5, 6⟩⟩] ((), ()) 5
          = Outcome.returned r
        ∧ r.ret = 0
        ∧ r.calls.filter Call.isEstimator = [Call.findFundamentalMat r.points1 r.points2] :=
  C6_estimator_always_invoked [⟨0, 0⟩, ⟨0, 0⟩, ⟨0, 0⟩, ⟨0, 0⟩, ⟨0, 0⟩] [⟨⟨1, 2⟩⟩] [⟨⟨5, 6⟩⟩]
    ((), ()) 5 (by decide)

/-- C6 as stated fails: for a record with three in-range correspondences (the
sequences built have six entries, fewer than 8) the run of `showMatches` does
call the estimator. -/
theorem C6_verifier_skip_counterexample :
    ∃ r : ShowResult Unit,
      showMatches [⟨0, 0⟩, ⟨0, 0⟩, ⟨0, 0⟩] [⟨⟨1, 2⟩⟩] [⟨⟨5, 6⟩⟩] ((), ()) 3 = Outcome.returned r
        ∧ ([⟨0, 0⟩, ⟨0, 0⟩, ⟨0, 0⟩] : List DMatch).length < 8
        ∧ r.points1.length < 8
        ∧ r.points2.length < 8
        ∧ Call.findFundamentalMat r.points1 r.points2 ∈ r.calls := by
  have hv : ∀ m ∈ ([⟨0, 0⟩, ⟨0, 0⟩, ⟨0, 0⟩] : List DMatch),
      m.InRange [⟨⟨1, 2⟩⟩] [⟨⟨5, 6⟩⟩] := by decide
  refine ⟨_, showMatches_inRange _ _ _ _ _ hv, by decide, ?_, ?_, ?_⟩
  · simp [readAll, vecRead]
  · simp [readAll, vecRead]
  · simp

/-! ## Claims on `showGTM` -/

/-- C7 (error flag of the run), amended by the precondition on the records:
when the image and GTM filename sequences pass the initial gates (no loader
error, non-empty, equal lengths) and every record read has all its indices in
range, `showGTM` reads the GTM file at every index of the sequence and returns;
it returns -1 exactly when the read failed for at least one index and 0 exactly
when no read failed. -/
theorem C7_error_flag {Img : Type} (env : Env Img)
    (img_path l_img_pref r_img_pref gtm_path : String) ( gtm_postfix : String)
    (fl fr fg : List String)
    (himg : env.loadImgStereoSequence img_path l_img_pref
      (if r_img_pref.isEmpty then l_img_pref else r_img_pref) = (0, fl, fr))
    (hfl : fl ≠ []) (hfr : fr ≠ []) (hlen : fl.length = fr.length)
    (hgtm : env.loadGTMSequence gtm_path gtm_postfix = (0, fg))
    (hfg : fg ≠ []) (hglen : fg.length = fl.length)
    (hvalid : ∀ k, k < fl.length →
      ∀ r, env.readGTMatchesDisk (fg.getD k "") = some r → r.Valid) :
    ∃ (err : ℤ) (ev : List (Event Img)),
      showGTM env img_path l_img_pref r_img_pref gtm_path gtm_postfix
          = RunOutcome.returned err ev
        ∧ readIndices ev = List.range fl.length
        ∧ (err = -1 ↔ ∃ k, k < fl.length ∧ env.readGTMatchesDisk (fg.getD k "") = none)
        ∧ (err = 0 ↔ ∀ k, k < fl.length → env.readGTMatchesDisk (fg.getD k "") ≠ none) := by
  obtain ⟨ev, h1, h2, _⟩ := pairLoop_valid env fl fr fg (List.range fl.length) 0 []
    (fun k hk => hvalid k (List.mem_range.mp hk))
  rw [List.nil_append] at h1
  refine ⟨_, ev, (showGTM_gated env img_path l_img_pref r_img_pref gtm_path gtm_postfix
    fl fr fg himg hfl hfr hlen hgtm hfg hglen).trans h1, h2, ?_, ?_⟩
  · by_cases hall : (List.range fl.length).all (readOk env fg) = true
    · rw [if_pos hall]
      have := (all_readOk_iff env fg fl.length).mp hall
      constructor
      · intro h; norm_num at h
      · rintro ⟨k, hk, hnone⟩
        exact absurd hnone (this k hk)
    · rw [if_neg hall]
      have hne := mt (all_readOk_iff env fg fl.length).mpr hall
      push_neg at hne
      exact ⟨fun _ => hne, fun _ => rfl⟩
  · by_cases hall : (List.range fl.length).all (readOk env fg) = true
    · rw [if_pos hall]
      exact ⟨fun _ => (all_readOk_iff env fg fl.length).mp hall, fun _ => rfl⟩
    · rw [if_neg hall]
      constructor
      · intro h; norm_num at h
      · intro h
        exact absurd ((all_readOk_iff env fg fl.length).mpr h) hall

theorem envFiveOneBad_valid (file : String) (r : GTMRecord)
    (h : envFiveOneBad.readGTMatchesDisk file = some r) : r.Valid := by
  simp only [envFiveOneBad] at h
  split at h
  · cases h
  · cases h
    decide

theorem C7_error_flag_witness :
    ∃ (err : ℤ) (ev : List (Event Unit)),
      showGTM envFiveOneBad "imgs" "left/*.png" "right/*.png" "gtm" "*inlRat950FAST.gtm"
          = RunOutcome.returned err ev
        ∧ readIndices ev
            = List.range (["l0.png", "l1.png", "l2.png", "l3.png", "l4.png"] : List String).length
        ∧ (err = -1 ↔ ∃ k,
            k < (["l0.png", "l1.png", "l2.png", "l3.png", "l4.png"] : List String).length
              ∧ envFiveOneBad.readGTMatchesDisk
                  ((["g0.gtm", "g1.gtm", "g2.gtm", "g3.gtm", "g4.gtm"] : List String).getD k "")
                = none)
        ∧ (err = 0 ↔ ∀ k,
            k < (["l0.png", "l1.png", "l2.png", "l3.png", "l4.png"] : List String).length →
              envFiveOneBad.readGTMatchesDisk
                  ((["g0.gtm", "g1.gtm", "g2.gtm", "g3.gtm", "g4.gtm"] : List String).getD k "")
                ≠ none) :=
  C7_error_flag envFiveOneBad "imgs" "left/*.png" "right/*.png" "gtm" "*inlRat950FAST.gtm"
    ["l0.png", "l1.png", "l2.png", "l3.png", "l4.png"]
    ["r0.png", "r1.png", "r2.png", "r3.png", "r4.png"]
    ["g0.gtm", "g1.gtm", "g2.gtm", "g3.gtm", "g4.gtm"]
    rfl (by simp) (by simp) rfl rfl (by simp) rfl
    (fun _ _ r h => envFiveOneBad_valid _ r h)

/-- C8 (per-pair skip and continue), amended by the precondition on the records:
for a gated run of `showGTM` over `n` pairs in which every record read has all
its indices in range, `showMatches` is invoked exactly once for each index
whose GTM read succeeded and never for an index whose read failed, in
increasing index order; the invocations and the failed reads together account
for all `n` indices, and a failed read sets the returned flag.  With one
failing file among five there are 4 invocations and the flag is -1. -/
theorem C8_skip_and_continue {Img : Type} (env : Env Img)
    (img_path l_img_pref r_img_pref gtm_path : String) ( gtm_postfix : String)
    (fl fr fg : List String)
    (himg : env.loadImgStereoSequence img_path l_img_pref
      (if r_img_pref.isEmpty then l_img_pref else r_img_pref) = (0, fl, fr))
    (hfl : fl ≠ []) (hfr : fr ≠ []) (hlen : fl.length = fr.length)
    (hgtm : env.loadGTMSequence gtm_path gtm_postfix = (0, fg))
    (hfg : fg ≠ []) (hglen : fg.length = fl.length)
    (hvalid : ∀ k, k < fl.length →
      ∀ r, env.readGTMatchesDisk (fg.getD k "") = some r → r.Valid) :
    ∃ (err : ℤ) (ev : List (Event Img)),
      showGTM env img_path l_img_pref r_img_pref gtm_path gtm_postfix
          = RunOutcome.returned err ev
        ∧ shownIndices ev = (List.range fl.length).filter (readOk env fg)
        ∧ (shownIndices ev).length
            + ((List.range fl.length).filter (fun k => !readOk env fg k)).length = fl.length
        ∧ (0 < ((List.range fl.length).filter (fun k => !readOk env fg k)).length → err = -1)
        ∧ (fl.length = 5 →
            ((List.range fl.length).filter (fun k => !readOk env fg k)).length = 1 →
            (shownIndices ev).length = 4 ∧ err = -1) := by
  obtain ⟨ev, h1, _, h3⟩ := pairLoop_valid env fl fr fg (List.range fl.length) 0 []
    (fun k hk => hvalid k (List.mem_range.mp hk))
  rw [List.nil_append] at h1
  have hsum := length_filter_add_length_filter_not (readOk env fg) (List.range fl.length)
  rw [List.length_range] at hsum
  have hflag : 0 < ((List.range fl.length).filter (fun k => !readOk env fg k)).length →
      (if (List.range fl.length).all (readOk env fg) = true then (0 : ℤ) else -1) = -1 := by
    intro hpos
    obtain ⟨k, hk⟩ := List.exists_mem_of_length_pos hpos
    rw [List.mem_filter] at hk
    have hnot : ¬ (List.range fl.length).all (readOk env fg) = true := by
      intro hall
      have := List.all_eq_true.mp hall k hk.1
      simp [this] at hk
    rw [if_neg hnot]
  refine ⟨_, ev, (showGTM_gated env img_path l_img_pref r_img_pref gtm_path gtm_postfix
    fl fr fg himg hfl hfr hlen hgtm hfg hglen).trans h1, h3, ?_, hflag, ?_⟩
  · rw [h3]
    exact hsum
  · intro h5 hone
    rw [h3]
    exact ⟨by omega, hflag (by omega)⟩

theorem C8_skip_and_continue_witness :
    ∃ (err : ℤ) (ev : List (Event Unit)),
      showGTM envFiveOneBad "imgs" "left/*.png" "right/*.png" "gtm" "*inlRat950FAST.gtm"
          = RunOutcome.returned err ev
        ∧ shownIndices ev
            = (List.range (["l0.png", "l1.png", "l2.png", "l3.png", "l4.png"] : List String).length).filter
                (readOk envFiveOneBad ["g0.gtm", "g1.gtm", "g2.gtm", "g3.gtm", "g4.gtm"])
        ∧ (shownIndices ev).length
            + ((List.range (["l0.png", "l1.png", "l2.png", "l3.png", "l4.png"] : List String).length).filter
                (fun k => !readOk envFiveOneBad
                  ["g0.gtm", "g1.gtm", "g2.gtm", "g3.gtm", "g4.gtm"] k)).length
            = (["l0.png", "l1.png", "l2.png", "l3.png", "l4.png"] : List String).length
        ∧ (0 < ((List.range (["l0.png", "l1.png", "l2.png", "l3.png", "l4.png"] : List String).length).filter
                (fun k => !readOk envFiveOneBad
                  ["g0.gtm", "g1.gtm", "g2.gtm", "g3.gtm", "g4.gtm"] k)).length → err = -1)
        ∧ ((["l0.png", "l1.png", "l2.png", "l3.png", "l4.png"] : List String).length = 5 →
            ((List.range (["l0.png", "l1.png", "l2.png", "l3.png", "l4.png"] : List String).length).filter
                (fun k => !readOk envFiveOneBad
                  ["g0.gtm", "g1.gtm", "g2.gtm", "g3.gtm", "g4.gtm"] k)).length = 1 →
            (shownIndices ev).length = 4 ∧ err = -1) :=
  C8_skip_and_continue envFiveOneBad "imgs" "left/*.png" "right/*.png" "gtm"
    "*inlRat950FAST.gtm"
    ["l0.png", "l1.png", "l2.png", "l3.png", "l4.png"]
    ["r0.png", "r1.png", "r2.png", "r3.png", "r4.png"]
    ["g0.gtm", "g1.gtm", "g2.gtm", "g3.gtm", "g4.gtm"]
    rfl (by simp) (by simp) rfl rfl (by simp) rfl
    (fun _ _ r h => envFiveOneBad_valid _ r h)

/-- The run on `envMalformedFirst`: both gates pass, the read of pair 0
succeeds, and the call of `showMatches` for pair 0 reads `keypL[7]`. -/
theorem showGTM_envMalformedFirst :
    showGTM envMalformedFirst "imgs" "left/*.png" "right/*.png" "gtm" "*inlRat950FAST.gtm"
      = RunOutcome.undefinedRead 0 Side.left 7
          [Event.imread "l0.png", Event.imread "r0.png", Event.readGTM 0 "g0.gtm" true,
            Event.print ("Succesfully read GTM file " ++ "g0.gtm")] := by
  simp [showGTM, envMalformedFirst, pairLoop, List.range_succ, showMatches, extractLoop,
    extractStep, vecRead, malformedRecord]

/-- C7 as stated fails: on `envMalformedFirst` the sequences pass both gates and
both GTM reads would succeed, so the claim has `showGTM` read indices 0 and 1
and return 0; but the record of pair 0 has the left index 7 for one left
keypoint, and the run ends in the unchecked read `keypL[7]` after reading
index 0 only, without returning. -/
theorem C7_error_flag_counterexample :
    envMalformedFirst.loadImgStereoSequence "imgs" "left/*.png" "right/*.png"
        = (0, ["l0.png", "l1.png"], ["r0.png", "r1.png"])
      ∧ envMalformedFirst.loadGTMSequence "gtm" "*inlRat950FAST.gtm" = (0, ["g0.gtm", "g1.gtm"])
      ∧ (∀ k, k < 2 →
          envMalformedFirst.readGTMatchesDisk ((["g0.gtm", "g1.gtm"] : List String).getD k "")
            ≠ none)
      ∧ (∃ ev, showGTM envMalformedFirst "imgs" "left/*.png" "right/*.png" "gtm"
              "*inlRat950FAST.gtm" = RunOutcome.undefinedRead 0 Side.left 7 ev
            ∧ readIndices ev = [0])
      ∧ ¬ ∃ (err : ℤ) (ev : List (Event Unit)),
          showGTM envMalformedFirst "imgs" "left/*.png" "right/*.png" "gtm"
            "*inlRat950FAST.gtm" = RunOutcome.returned err ev := by
  refine ⟨rfl, rfl, ?_, ⟨_, showGTM_envMalformedFirst, rfl⟩, ?_⟩
  · intro k _
    simp only [envMalformedFirst]
    split <;> simp
  · rw [showGTM_envMalformedFirst]
    rintro ⟨err, ev, h⟩
    cases h

/-- C8 as stated fails: on `envMalformedFirst` the run is gated and the reads of
both pairs succeed, but the run ends inside the `showMatches` call of pair 0 in
the unchecked read `keypL[7]`; no call of `showMatches` completes and none is
made for index 1, whose read would succeed. -/
theorem C8_skip_and_continue_counterexample :
    envMalformedFirst.loadImgStereoSequence "imgs" "left/*.png" "right/*.png"
        = (0, ["l0.png", "l1.png"], ["r0.png", "r1.png"])
      ∧ envMalformedFirst.loadGTMSequence "gtm" "*inlRat950FAST.gtm" = (0, ["g0.gtm", "g1.gtm"])
      ∧ (List.range 2).filter (readOk envMalformedFirst ["g0.gtm", "g1.gtm"]) = [0, 1]
      ∧ (∃ ev, showGTM envMalformedFirst "imgs" "left/*.png" "right/*.png" "gtm"
              "*inlRat950FAST.gtm" = RunOutcome.undefinedRead 0 Side.left 7 ev
            ∧ shownIndices ev = [])
      ∧ ¬ ∃ (err : ℤ) (ev : List (Event Unit)),
          showGTM envMalformedFirst "imgs" "left/*.png" "right/*.png" "gtm"
            "*inlRat950FAST.gtm" = RunOutcome.returned err ev := by
  refine ⟨rfl, rfl, ?_, ⟨_, showGTM_envMalformedFirst, rfl⟩, ?_⟩
  · simp [List.range_succ, readOk, envMalformedFirst]
  · rw [showGTM_envMalformedFirst]
    rintro ⟨err, ev, h⟩
    cases h

/-- Every sequence-level failure ends the run in `exit(0)` before any GTM file
is read. -/
theorem showGTM_gate_failure {Img : Type} (env : Env Img)
    (img_path l_img_pref r_img_pref gtm_path : String) ( gtm_postfix : String)
    (h : (env.loadImgStereoSequence img_path l_img_pref
            (if r_img_pref.isEmpty then l_img_pref else r_img_pref)).1 ≠ 0
        ∨ (env.loadImgStereoSequence img_path l_img_pref
            (if r_img_pref.isEmpty then l_img_pref else r_img_pref)).2.1 = []
        ∨ (env.loadImgStereoSequence img_path l_img_pref
            (if r_img_pref.isEmpty then l_img_pref else r_img_pref)).2.2 = []
        ∨ (env.loadImgStereoSequence img_path l_img_pref
            (if r_img_pref.isEmpty then l_img_pref else r_img_pref)).2.1.length
          ≠ (env.loadImgStereoSequence img_path l_img_pref
            (if r_img_pref.isEmpty then l_img_pref else r_img_pref)).2.2.length
        ∨ (env.loadGTMSequence gtm_path gtm_postfix).1 ≠ 0
        ∨ (env.loadGTMSequence gtm_path gtm_postfix).2 = []
        ∨ (env.loadGTMSequence gtm_path gtm_postfix).2.length
          ≠ (env.loadImgStereoSequence img_path l_img_pref
            (if r_img_pref.isEmpty then l_img_pref else r_img_pref)).2.1.length) :
    ∃ ev, showGTM env img_path l_img_pref r_img_pref gtm_path gtm_postfix
        = RunOutcome.exited 0 ev ∧ readIndices ev = [] := by
  unfold showGTM
  simp only
  generalize (if r_img_pref.isEmpty = true then l_img_pref else r_img_pref) = pr at h ⊢
  generalize env.loadImgStereoSequence img_path l_img_pref pr = imgs at h ⊢
  generalize env.loadGTMSequence gtm_path gtm_postfix = gtms at h ⊢
  by_cases h1 : imgs.1 ≠ 0 ∨ imgs.2.1.isEmpty = true ∨ imgs.2.2.isEmpty = true
      ∨ imgs.2.1.length ≠ imgs.2.2.length
  · rw [if_pos h1]
    exact ⟨_, rfl, rfl⟩
  · rw [if_neg h1]
    by_cases h2 : gtms.1 ≠ 0 ∨ gtms.2.isEmpty = true ∨ gtms.2.length ≠ imgs.2.1.length
    · rw [if_pos h2]
      exact ⟨_, rfl, rfl⟩
    · exfalso
      simp only [List.isEmpty_iff] at h1 h2
      tauto

/-- C9 (exit status on a sequence-level failure), the code at failing inputs:
with 3 left and 2 right image names, and with 2 image pairs but 1 GTM file, the
run of `showGTM` ends at once in `exit(0)`, so the process status is 0, not the
non-zero status the claim states. -/
theorem C9_exit_status_is_zero :
    showGTM envThreeTwo "imgs" "left/*.png" "right/*.png" "gtm" "*inlRat950FAST.gtm"
        = RunOutcome.exited 0 [Event.print "Could not find flow images! Exiting."]
      ∧ showGTM envTwoPairsOneGTM "imgs" "left/*.png" "right/*.png" "gtm" "*inlRat950FAST.gtm"
        = RunOutcome.exited 0 [Event.print "Could not find GTM files! Exiting."] := by
  constructor
  · simp [showGTM, envThreeTwo]
  · simp [showGTM, envTwoPairsOneGTM]

/-! ## C10: closed form of the decimation when the arithmetic is exact -/

/-- C10 (closed form of the decimation): when the stride that `showMatches`
computes is `M / K` exactly and the conversions `(float) i` of the indices are
exact, so that the remainders are those of exact arithmetic, then for
`1 ≤ K < M` the indices whose mask entry is true after the loop are, in
increasing order, `⌈j * M / K⌉` for `0 ≤ j < K`; an index `i ≥ 1` is retained
exactly when `⌊i * K / M⌋ > ⌊(i - 1) * K / M⌋`; exactly `K` entries are
retained; and consecutive retained indices are `⌊M / K⌋` or `⌈M / K⌉` apart. -/
theorem C10_closed_form (M K : ℕ) (hK : 1 ≤ K) (hKM : K < M)
    (hstride : keepXthMatch roundF32 M K = F32.fin ((M : ℚ) / K))
    (hidx : ∀ i : ℕ, i < M → roundF32 i = i) :
    retainedIndices (matchesMask M K) = (List.range K).map (fun j => (j * M + K - 1) / K)
      ∧ (∀ i, 1 ≤ i → i < M →
          ((matchesMask M K)[i]? = some true ↔ (i - 1) * K / M < i * K / M))
      ∧ (matchesMask M K).count true = K
      ∧ (∀ j, j + 1 < K →
          ((j + 1) * M + K - 1) / K - (j * M + K - 1) / K = M / K
            ∨ ((j + 1) * M + K - 1) / K - (j * M + K - 1) / K = (M + K - 1) / K) := by
  have hret : retainedIndices (matchesMask M K) = (List.range K).map (windowStart M K) :=
    retainedIndices_exact hK hKM hstride hidx
  refine ⟨hret, ?_, ?_, ?_⟩
  · intro i hi1 hiM
    obtain ⟨i', rfl⟩ : ∃ i', i = i' + 1 := ⟨i - 1, by omega⟩
    unfold matchesMask
    rw [matchesMaskWith_eq, hstride, Nat.add_sub_cancel,
      ← keptAt_exact_succ_iff hK hKM i' (hidx i' (by omega)) (hidx (i' + 1) hiM)]
    simp [hiM]
  · rw [count_true_eq_length_retained, hret]
    simp
  · intro j _
    exact windowStart_gap M j hK

theorem keepXthMatch_500_50 : keepXthMatch roundF32 500 50 = F32.fin (((500 : ℕ) : ℚ) / (50 : ℕ)) := by
  rw [keepXthMatch_roundF32 (by norm_num) (by norm_num) (by norm_num)]
  have h : (((500 : ℕ) : ℚ)) / ((50 : ℕ) : ℚ) = ((10 : ℕ) : ℚ) := by norm_num
  rw [h, roundF32_natCast_of_le (by norm_num)]

theorem C10_closed_form_witness :
    retainedIndices (matchesMask 500 50)
        = (List.range 50).map (fun j => (j * 500 + 50 - 1) / 50)
      ∧ (∀ i, 1 ≤ i → i < 500 →
          ((matchesMask 500 50)[i]? = some true ↔ (i - 1) * 50 / 500 < i * 50 / 500))
      ∧ (matchesMask 500 50).count true = 50
      ∧ (∀ j, j + 1 < 50 →
          ((j + 1) * 500 + 50 - 1) / 50 - (j * 500 + 50 - 1) / 50 = 500 / 50
            ∨ ((j + 1) * 500 + 50 - 1) / 50 - (j * 500 + 50 - 1) / 50 = (500 + 50 - 1) / 50) :=
  C10_closed_form 500 50 (by norm_num) (by norm_num) keepXthMatch_500_50
    (fun i hi => roundF32_natCast_of_le (by omega))

/-! ## Further facts on the code as written -/

theorem intLog_two_eq {x : ℚ} (hx : 0 < x) (e : ℤ) (hlo : (2 : ℚ) ^ e ≤ x)
    (hhi : x < (2 : ℚ) ^ (e + 1)) : Int.log 2 x = e := by
  have h1 : e ≤ Int.log 2 x := by
    apply (Int.zpow_le_iff_le_log (b := 2) (by norm_num) hx).mp
    simpa using hlo
  have h2 : Int.log 2 x < e + 1 := by
    apply (Int.lt_zpow_iff_log_lt (b := 2) (by norm_num) hx).mp
    simpa using hhi
  omega

theorem roundF32_four_thirds : roundF32 (4 / 3) = 11184811 / 8388608 := by
  have hlog : Int.log 2 ((4 : ℚ) / 3) = 0 :=
    intLog_two_eq (by norm_num) 0 (by norm_num) (by norm_num)
  have hscaled : (4 : ℚ) / 3 / (2 : ℚ) ^ ((0 : ℤ) - 23) = 33554432 / 3 := by
    have : (2 : ℚ) ^ ((0 : ℤ) - 23) = 1 / 8388608 := by
      rw [zero_sub, zpow_neg]
      norm_num
    rw [this]
    norm_num
  have hfl : ⌊(33554432 : ℚ) / 3⌋ = 11184810 := by
    rw [Int.floor_eq_iff]
    norm_num
  have hround : roundHalfEven ((33554432 : ℚ) / 3) = 11184811 := by
    unfold roundHalfEven
    rw [hfl, if_neg (by norm_num), if_pos (by norm_num)]
    norm_num
  unfold roundF32
  rw [if_neg (by norm_num), hlog, hscaled, hround]
  rw [zero_sub, zpow_neg]
  norm_num

/-- The closed form needs the stride to be exact: for 8 matches and the cap 6
the binary32 stride is `11184811 / 8388608`, just above `4 / 3`, and index 4,
the window start `⌈3 * 8 / 6⌉`, is not retained by `showMatches`. -/
theorem closed_form_needs_exact_stride :
    (matchesMask 8 6)[4]? = some false ∧ (3 * 8 + 6 - 1) / 6 = 4
      ∧ keepXthMatch roundF32 8 6 ≠ F32.fin (((8 : ℕ) : ℚ) / (6 : ℕ)) := by
  have hs : keepXthMatch roundF32 8 6 = F32.fin (11184811 / 8388608) := by
    rw [keepXthMatch_roundF32 (by norm_num) (by norm_num) (by norm_num)]
    have h : (((8 : ℕ) : ℚ)) / ((6 : ℕ) : ℚ) = 4 / 3 := by norm_num
    rw [h, roundF32_four_thirds]
  refine ⟨?_, by norm_num, ?_⟩
  · have h3 : roundF32 ((3 : ℕ) : ℚ) = 3 := by
      rw [roundF32_natCast_of_le (by norm_num)]
      norm_num
    have h4 : roundF32 ((4 : ℕ) : ℚ) = 4 := by
      rw [roundF32_natCast_of_le (by norm_num)]
      norm_num
    have hf3 : ⌊(3 : ℚ) / (11184811 / 8388608)⌋ = 2 := by
      rw [Int.floor_eq_iff]
      norm_num
    have hf4 : ⌊(4 : ℚ) / (11184811 / 8388608)⌋ = 2 := by
      rw [Int.floor_eq_iff]
      norm_num
    have hk : keptAt roundF32 (F32.fin (11184811 / 8388608)) 4 = false := by
      have hold : oldAt roundF32 (F32.fin (11184811 / 8388608)) 4
          = remAt roundF32 (F32.fin (11184811 / 8388608)) 3 := rfl
      unfold keptAt
      rw [hold]
      unfold remAt
      rw [h3, h4]
      simp only [fmodf, hf3, hf4]
      norm_num
    unfold matchesMask
    rw [matchesMaskWith_eq, hs]
    simp [hk]
  · rw [hs]
    intro h
    injection h with h
    norm_num at h

/-- The two sequences handed to the estimator, in full: `M` blank points
followed by the endpoints of all `M` correspondences. -/
theorem showMatches_points {Img : Type} (matchList : List DMatch) (keypL keypR : List KeyPoint)
    (imgs : Img × Img) (keepNMatches : ℕ) (hv : ∀ m ∈ matchList, m.InRange keypL keypR) :
    ∃ r : ShowResult Img,
      showMatches matchList keypL keypR imgs keepNMatches = Outcome.returned r
        ∧ r.matchesMask = matchesMask matchList.length keepNMatches
        ∧ r.points1 = List.replicate matchList.length ⟨0, 0⟩ ++ allLeft matchList keypL
        ∧ r.points2 = List.replicate matchList.length ⟨0, 0⟩ ++ allRight matchList keypR := by
  refine ⟨_, showMatches_inRange matchList keypL keypR imgs keepNMatches hv, rfl, ?_, ?_⟩
  · simp [allLeft_eq, KeyPoint.blank]
  · simp [allRight_eq, KeyPoint.blank]

end GTM
